import Mathlib

/-! Verification of `find_largest_sum` (src/largest_sum.cpp) and of `add`
(src/add_sum_binary.cpp).

Shallow embedding of the subset-sum routine of the repository and of its bitwise
addition.

Conventions of the embedding.

* In `find_largest_sum`, `uint32_t` and `int` values are mathematical integers
  (`Nat`, and `Int` for the two cursors of `collect_result`, which the source
  decrements): this is the no-overflow reading under which the specification is
  written.  In `add` the 32-bit width is explicit.
* `std::vector` is `List`; the table `memorize` is a list of rows.  Every
  indexed access is checked: reading or writing outside the vector makes the
  whole computation `none`.  A negative `int` used as an index is out of range.
* The output parameters `M` and `S` are returned as a pair; `M` is also an input,
  because the source appends to the vector it is given.
* `while` loops carry a fuel argument and return `none` when it runs out; the
  entry points pass enough fuel, and the totality theorems below show that `none`
  is never returned.
-/

namespace LargestSum

/-- The type `memorize_t`: a vector of rows. -/
abbrev Table := List (List Nat)

/-- Checked read `memorize[i][j]`. -/
def rd (memorize : Table) (i j : Nat) : Option Nat :=
  match memorize[i]? with
  | none => none
  | some row => row[j]?

/-- Checked write `memorize[i][j] = v`. -/
def wr (memorize : Table) (i j v : Nat) : Option Table :=
  match memorize[i]? with
  | none => none
  | some row => if j < row.length then some (memorize.set i (row.set j v)) else none

/-- An `int` used as a vector index: valid only when it is not negative. -/
def idx (k : Int) : Option Nat :=
  if 0 ≤ k then some k.toNat else none

/-- Checked read `V[k]` with an `int` index. -/
def rdV (V : List Nat) (k : Int) : Option Nat :=
  match idx k with
  | none => none
  | some n => V[n]?

/-- Checked read `memorize[i][j]` with `int` indices. -/
def rdI (memorize : Table) (i j : Int) : Option Nat :=
  match idx i, idx j with
  | some a, some b => rd memorize a b
  | _, _ => none

/-- The inner loop of `collect_result`:
`for(; i-1 >= 0 && memorize[i-1][j]==cell_val; --i);` -/
def skipLoop (memorize : Table) (j : Int) (cell_val : Nat) : Nat → Int → Option Int
  | 0, _ => none
  | fuel + 1, i =>
    if i - 1 ≥ 0 then
      match rdI memorize (i - 1) j with
      | none => none
      | some x => if x = cell_val then skipLoop memorize j cell_val fuel (i - 1) else some i
    else some i

/-- The `while` loop of `collect_result`, from the cursor `(i, j)` with the
current contents of `M` and `S`.  The cursors are `int` in the source and are
compared with `uint32_t` cells; the comparisons are taken over the integers,
which agrees with the source whenever `j` is not negative, and a negative `j`
can only be compared after the out-of-range read `V[-1]`. -/
def collectLoop (memorize : Table) (V : List Nat) (i_res T : Nat) :
    Nat → Int → Int → List Nat → Nat → Option (List Nat × Nat)
  | 0, _, _, _, _ => none
  | fuel + 1, i, j, M, S =>
    match rd memorize i_res T with
    | none => none
    | some d =>
      if j > (d : Int) then
        match rdV V (i - 1) with
        | none => none
        | some v =>
          let M1 := M ++ [v]
          let S1 := S + v
          let j1 := j - (v : Int)
          let i1 := i - 1
          if i1 < 0 ∧ j1 ≤ (d : Int) then some (M1, S1)
          else
            match rdI memorize i1 j1 with
            | none => none
            | some cell_val =>
              match skipLoop memorize j1 cell_val (i1.toNat + 1) i1 with
              | none => none
              | some i2 => collectLoop memorize V i_res T fuel i2 j1 M1 S1
      else some (M, S)

/-- The lambda `collect_result`: `i = i_res; j = T;` then the loop. -/
def collect_result (memorize : Table) (V : List Nat) (T : Nat) (M : List Nat) (S : Nat)
    (i_res : Nat) : Option (List Nat × Nat) :=
  collectLoop memorize V i_res T (i_res + 1) (i_res : Int) (T : Int) M S

/-- The loop `for(i=1; i<=T; i++) memorize[0][i] = i;`, with `k` iterations left. -/
def initRow : Nat → Nat → Table → Option Table
  | 0, _, memorize => some memorize
  | k + 1, i, memorize =>
    match wr memorize 0 i i with
    | none => none
    | some m1 => initRow k (i + 1) m1

/-- How the table construction ends. -/
inductive Fill where
  /-- The branch `rest==0` was taken at row `i`: `collect_result(i); return;`. -/
  | found (memorize : Table) (i : Nat)
  /-- The loops ran to the end: `collect_result(min_indx)`. -/
  | done (memorize : Table) (min_indx : Nat)

/-- The loop over the columns `j` of row `i`, with `k` iterations left. -/
def fillCols (T : Nat) (V : List Nat) (i : Nat) : Nat → Nat → Table → Nat → Option Fill
  | 0, _, memorize, min_indx => some (Fill.done memorize min_indx)
  | k + 1, j, memorize, min_indx =>
    match V[i - 1]?, rd memorize 0 j with
    | some v, some c =>
      if v > c then
        -- Just copy the value from the cell above
        match rd memorize (i - 1) j with
        | none => none
        | some a =>
          match wr memorize i j a with
          | none => none
          | some m1 => fillCols T V i k (j + 1) m1 min_indx
      else
        let rest := c - v
        if j ≥ T then
          if rest = 0 then some (Fill.found memorize i)
          else
            match rd memorize i T, rd memorize min_indx T with
            | some x, some y =>
              let min1 := if x < y then i else min_indx
              match rd memorize (i - 1) rest with
              | none => none
              | some a =>
                match wr memorize i j a with
                | none => none
                | some m1 => fillCols T V i k (j + 1) m1 min1
            | _, _ => none
        else
          match rd memorize (i - 1) rest with
          | none => none
          | some a =>
            match wr memorize i j a with
            | none => none
            | some m1 => fillCols T V i k (j + 1) m1 min_indx
    | _, _ => none

/-- The loop over the rows `i`, with `k` iterations left. -/
def fillRows (T : Nat) (V : List Nat) : Nat → Nat → Table → Nat → Option Fill
  | 0, _, memorize, min_indx => some (Fill.done memorize min_indx)
  | k + 1, i, memorize, min_indx =>
    match fillCols T V i (T + 1) 0 memorize min_indx with
    | none => none
    | some (Fill.found m1 r) => some (Fill.found m1 r)
    | some (Fill.done m1 min1) => fillRows T V k (i + 1) m1 min1

/-- The table construction of `find_largest_sum` for `n = I.size()` items with
sorted copy `V`: allocation of `memorize(I.size()+1, vector(T+1, 0))`, row 0,
then the fill, whose outer loop `for(i=1; i<memorize.size(); i++)` runs `n` times. -/
def build (T n : Nat) (V : List Nat) : Option Fill :=
  let memorize : Table := List.replicate (n + 1) (List.replicate (T + 1) 0)
  match initRow T 1 memorize with
  | none => none
  | some m0 => fillRows T V (memorize.length - 1) 1 m0 0

/-- The function `find_largest_sum(T, I, M, S)`; the result is the final `(M, S)`. -/
def find_largest_sum (T : Nat) (I : List Nat) (M : List Nat) : Option (List Nat × Nat) :=
  let S := 0
  if I.isEmpty then some (M, S)
  else
    let M1 := if T = 0 ∧ I.contains 0 then M ++ [0] else M
    let V := I.insertionSort (fun a b => a ≤ b)
    match build T I.length V with
    | none => none
    | some (Fill.found memorize i) => collect_result memorize V T M1 S i
    | some (Fill.done memorize min_indx) => collect_result memorize V T M1 S min_indx

/-! ## Functional description of the computation

The functions below describe, without a table, what the loops above compute;
the refinement theorems relate the two. -/

/-- Value of a computed cell `memorize[i][j]`: row 0 holds `j`; row `i+1` copies
the cell above when `V[i]` does not fit and otherwise takes the cell of row `i`
at column `j - V[i]`. -/
def deficit (V : List Nat) : Nat → Nat → Nat
  | 0, j => j
  | i + 1, j => if V.getD i 0 > j then deficit V i j else deficit V i (j - V.getD i 0)

/-- Value of `min_indx` after column `T` of row `i`, from its value before it;
the cell `memorize[i][T]` still holds its initial 0 when it is compared. -/
def sel (T : Nat) (V : List Nat) (i min_indx : Nat) : Nat :=
  if V.getD (i - 1) 0 < T ∧ 0 < deficit V min_indx T then i else min_indx

/-- Row handed to `collect_result`, scanning `k` rows from row `i`. -/
def scanRows (T : Nat) (V : List Nat) : Nat → Nat → Nat → Nat
  | 0, _, min_indx => min_indx
  | k + 1, i, min_indx =>
    if V.getD (i - 1) 0 = T then i else scanRows T V k (i + 1) (sel T V i min_indx)

/-- Row handed to `collect_result` by `find_largest_sum`. -/
def pickRow (T : Nat) (V : List Nat) : Nat :=
  scanRows T V V.length 1 0

/-- Elements pushed by `collect_result` once the cursor stands at `(i, j)` after
an element was taken: rows whose cell equals the one above are skipped. -/
def steps (V : List Nat) (d : Nat) : Nat → Nat → List Nat
  | 0, _ => []
  | i + 1, j =>
    if j ≤ d then []
    else if deficit V i j = deficit V (i + 1) j then steps V d i j
    else V.getD i 0 :: steps V d i (j - V.getD i 0)

/-- Elements pushed by `collect_result` from the head of its loop at `(i, j)`. -/
def headSteps (V : List Nat) (d : Nat) : Nat → Nat → List Nat
  | 0, _ => []
  | i + 1, j => if j > d then V.getD i 0 :: steps V d i (j - V.getD i 0) else []

/-- Elements appended to `M` by the call `find_largest_sum(T, I, M, S)` after the
optional 0 of the `T==0` case, for the sorted items `V`. -/
def taken (T : Nat) (V : List Nat) : List Nat :=
  headSteps V (deficit V (pickRow T V) T) (pickRow T V) T

/-- Result `(M, S)` of `find_largest_sum(T, I, M, S)`, computed without a table. -/
def solve (T : Nat) (I : List Nat) (M : List Nat) : List Nat × Nat :=
  if I.isEmpty then (M, 0)
  else
    let V := I.insertionSort (fun a b => a ≤ b)
    ((if T = 0 ∧ I.contains 0 then M ++ [0] else M) ++ taken T V, (taken T V).sum)

/-- Table invariant of the construction: the table has rows `0..n` and columns
`0..T`; the cells before `(i, j)` in row-major order hold their computed value
and every other cell still holds its initial 0. -/
def Filled (n T : Nat) (V : List Nat) (memorize : Table) (i j : Nat) : Prop :=
  ∀ a b, rd memorize a b =
    if a ≤ n ∧ b ≤ T then some (if a < i ∨ (a = i ∧ b < j) then deficit V a b else 0)
    else none

/-- What is known of the outcome of the table construction: `r` is the row that
`collect_result` receives. -/
def Built (T : Nat) (V : List Nat) (r : Nat) : Fill → Prop
  | Fill.found m i =>
    i = r ∧ 1 ≤ i ∧ i ≤ V.length ∧ V.getD (i - 1) 0 = T ∧ Filled V.length T V m i T
  | Fill.done m min_indx =>
    min_indx = r ∧ Filled V.length T V m (V.length + 1) 0

/-- The sum `s` is achievable from the items `I`: some sub-multiset of `I` has
sum `s`. -/
def Reachable (I : List Nat) (s : Nat) : Prop :=
  ∃ M : List Nat, M.Subperm I ∧ M.sum = s

/-- The table held by an outcome of the construction. -/
def Fill.table : Fill → Table
  | Fill.found m _ => m
  | Fill.done m _ => m

/-- The row `i_res` that `collect_result` receives after an outcome of the
construction. -/
def Fill.row : Fill → Nat
  | Fill.found _ i => i
  | Fill.done _ min_indx => min_indx

/-- The naive procedure of the greedy characterisation: scan the items in the
given order and take each item whenever it still fits in the remaining capacity;
the result is the sum taken. -/
def greedyTake : List Nat → Nat → Nat
  | [], _ => 0
  | v :: vs, c => if v ≤ c then v + greedyTake vs (c - v) else greedyTake vs c

/-- Table after the first `k` passes of the loop that initialises row 0. -/
def row0At (T n k : Nat) : Option Table :=
  initRow k 1 (List.replicate (n + 1) (List.replicate (T + 1) 0))

/-- Table at a point of the fill: after `r` complete passes of the loop over the
rows and then `k` passes of the loop over the columns of row `r + 1`; when the
early exit was taken before that point, the table at the exit. -/
def tableAt (T n : Nat) (V : List Nat) (r k : Nat) : Option Table :=
  match initRow T 1 (List.replicate (n + 1) (List.replicate (T + 1) 0)) with
  | none => none
  | some m0 =>
    match fillRows T V r 1 m0 0 with
    | none => none
    | some (Fill.found m1 _) => some m1
    | some (Fill.done m1 min_indx) =>
      match fillCols T V (r + 1) k 0 m1 min_indx with
      | none => none
      | some f => some f.table

/-- The loop of `collect_result` again, with the same reads, tests and cursor
updates as `collectLoop`, returning instead of `(M, S)` what the loop does: the
cursors `(i, j)` at which the body runs, in order, the value of `i` when the loop
is left, and whether it is left through the `break`. -/
def collectTrace (memorize : Table) (V : List Nat) (i_res T : Nat) :
    Nat → Int → Int → Option (List (Int × Int) × Int × Bool)
  | 0, _, _ => none
  | fuel + 1, i, j =>
    match rd memorize i_res T with
    | none => none
    | some d =>
      if j > (d : Int) then
        match rdV V (i - 1) with
        | none => none
        | some v =>
          let j1 := j - (v : Int)
          let i1 := i - 1
          if i1 < 0 ∧ j1 ≤ (d : Int) then some ([(i, j)], i1, true)
          else
            match rdI memorize i1 j1 with
            | none => none
            | some cell_val =>
              match skipLoop memorize j1 cell_val (i1.toNat + 1) i1 with
              | none => none
              | some i2 =>
                match collectTrace memorize V i_res T fuel i2 j1 with
                | none => none
                | some (tr, e, brk) => some ((i, j) :: tr, e, brk)
      else some ([], i, false)

/-- The element that the body of the loop pushes at the cursor `c`: `V[i-1]`. -/
def pushedAt (V : List Nat) (c : Int × Int) : Nat :=
  (rdV V (c.1 - 1)).getD 0

end LargestSum

/-! ## The function `add` (src/add_sum_binary.cpp) -/

namespace AddSumBinary

/-- The expression `a >> i & 1` for an `int`: bit `i` of the two's-complement
representation (the shift of a negative `int` is arithmetic, and the lowest bit of
an `int` is its remainder modulo 2). -/
def bitOf (a : Int) (i : Nat) : Nat :=
  ((a >>> i) % 2).toNat

/-- The loop `for(; i < size; i++)` of `add`, with `k` iterations left.  `result`
is kept as the unsigned 32-bit pattern of the `int` variable: every value or-ed
into it is a single bit below position 32. -/
def addLoop (a b : Int) : Nat → Nat → Nat → Nat → Nat
  | 0, _, result, _ => result
  | k + 1, i, result, carry =>
    let result1 := result ||| ((bitOf a i ^^^ bitOf b i ^^^ carry) <<< i)
    let carry1 := (bitOf a i &&& bitOf b i) ||| (bitOf a i &&& carry) ||| (bitOf b i &&& carry)
    addLoop a b k (i + 1) result1 carry1

/-- The `int` with a given unsigned 32-bit pattern. -/
def toInt32 (u : Nat) : Int :=
  if u < 2147483648 then (u : Int) else (u : Int) - 4294967296

/-- The function `add(a, b)` with `size = sizeof(int) * 8 = 32`. -/
def add (a b : Int) : Int :=
  toInt32 (addLoop a b 32 0 0 0)

/-- The 32-bit signed integers. -/
def IsInt32 (a : Int) : Prop :=
  -2147483648 ≤ a ∧ a < 2147483648

/-- Two's-complement wrapping of an integer: its residue modulo `2^32`,
reinterpreted as signed. -/
def wrap32 (x : Int) : Int :=
  toInt32 (x % 4294967296).toNat

end AddSumBinary

namespace LargestSum

/-! ## Table accesses -/

theorem rd_wr {m m1 : Table} {i j v : Nat} (h : wr m i j v = some m1) (a b : Nat) :
    rd m1 a b = if a = i ∧ b = j then some v else rd m a b := by
  unfold wr at h
  cases hrow : m[i]? with
  | none => simp [hrow] at h
  | some row =>
    simp only [hrow] at h
    split at h
    · rename_i hj
      injection h with h
      subst h
      have hi : i < m.length := by
        by_contra hc
        have : m[i]? = none := List.getElem?_eq_none_iff.mpr (by omega)
        simp [this] at hrow
      unfold rd
      by_cases hai : a = i
      · subst hai
        rw [List.getElem?_set]
        simp only [hi, if_true]
        rw [List.getElem?_set]
        by_cases hbj : b = j
        · subst hbj
          simp [hj]
        · have : ¬ (j = b) := fun e => hbj e.symm
          simp [hbj, this, hrow]
      · have : ¬ (i = a) := fun e => hai e.symm
        rw [List.getElem?_set_ne this]
        simp [hai]
    · simp at h

theorem wr_some {m : Table} {i j x : Nat} (h : rd m i j = some x) (v : Nat) :
    ∃ m1, wr m i j v = some m1 := by
  unfold rd at h
  unfold wr
  cases hrow : m[i]? with
  | none => simp [hrow] at h
  | some row =>
    simp only [hrow] at h
    have hj : j < row.length := by
      by_contra hc
      have : row[j]? = none := List.getElem?_eq_none_iff.mpr (by omega)
      simp [this] at h
    simp [hj]

theorem rd_replicate (n c a b : Nat) :
    rd (List.replicate n (List.replicate c 0)) a b = if a < n ∧ b < c then some 0 else none := by
  unfold rd
  rw [List.getElem?_replicate]
  by_cases ha : a < n
  · simp only [ha, if_true, true_and]
    rw [List.getElem?_replicate]
  · simp [ha]

/-! ## The table construction -/

theorem Filled.rd_done {n T : Nat} {V : List Nat} {m : Table} {i j : Nat}
    (h : Filled n T V m i j) {a b : Nat} (ha : a ≤ n) (hb : b ≤ T)
    (hab : a < i ∨ (a = i ∧ b < j)) : rd m a b = some (deficit V a b) := by
  rw [h a b]
  simp [ha, hb, hab]

theorem Filled.rd_fresh {n T : Nat} {V : List Nat} {m : Table} {i j : Nat}
    (h : Filled n T V m i j) {a b : Nat} (ha : a ≤ n) (hb : b ≤ T)
    (hab : ¬ (a < i ∨ (a = i ∧ b < j))) : rd m a b = some 0 := by
  rw [h a b]
  simp only [ha, hb, hab, and_self, if_true, if_false]

theorem Filled.write {n T : Nat} {V : List Nat} {m : Table} {i j : Nat}
    (h : Filled n T V m i j) (hi : i ≤ n) (hj : j ≤ T) :
    ∃ m1, wr m i j (deficit V i j) = some m1 ∧ Filled n T V m1 i (j + 1) := by
  have hr : rd m i j = some 0 := h.rd_fresh hi hj (by omega)
  obtain ⟨m1, hm1⟩ := wr_some hr (deficit V i j)
  refine ⟨m1, hm1, ?_⟩
  intro a b
  rw [rd_wr hm1, h a b]
  by_cases hab : a = i ∧ b = j
  · obtain ⟨rfl, rfl⟩ := hab
    simp [hi, hj]
  · simp only [hab, if_false]
    by_cases hd : a ≤ n ∧ b ≤ T
    · simp only [hd, and_self, if_true]
      have : (a < i ∨ a = i ∧ b < j + 1) ↔ (a < i ∨ a = i ∧ b < j) := by
        constructor
        · rintro (h1 | ⟨h1, h2⟩)
          · exact Or.inl h1
          · refine Or.inr ⟨h1, ?_⟩
            have : b ≠ j := fun e => hab ⟨h1, e⟩
            omega
        · rintro (h1 | ⟨h1, h2⟩)
          · exact Or.inl h1
          · exact Or.inr ⟨h1, by omega⟩
      simp only [this]
    · simp only [hd, if_false]

theorem Filled.next_row {n T : Nat} {V : List Nat} {m : Table} {i : Nat}
    (h : Filled n T V m i (T + 1)) : Filled n T V m (i + 1) 0 := by
  intro a b
  rw [h a b]
  by_cases hd : a ≤ n ∧ b ≤ T
  · have : (a < i + 1 ∨ a = i + 1 ∧ b < 0) ↔ (a < i ∨ a = i ∧ b < T + 1) := by
      constructor
      · rintro (h1 | ⟨_, h2⟩)
        · by_cases e : a = i
          · exact Or.inr ⟨e, by omega⟩
          · exact Or.inl (by omega)
        · omega
      · rintro (h1 | ⟨h1, _⟩)
        · exact Or.inl (by omega)
        · exact Or.inl (by omega)
    simp only [hd, and_self, if_true, this]
  · simp only [hd, if_false]

theorem deficit_succ (V : List Nat) (i j : Nat) :
    deficit V (i + 1) j =
      if V.getD i 0 > j then deficit V i j else deficit V i (j - V.getD i 0) := by
  rw [deficit]

theorem deficit_zero_row (V : List Nat) (j : Nat) : deficit V 0 j = j := by
  rw [deficit]

theorem Filled.init (n T : Nat) (V : List Nat) :
    Filled n T V (List.replicate (n + 1) (List.replicate (T + 1) 0)) 0 1 := by
  intro a b
  rw [rd_replicate]
  by_cases hd : a ≤ n ∧ b ≤ T
  · have hd1 : a < n + 1 ∧ b < T + 1 := by omega
    simp only [hd, hd1, and_self, if_true]
    by_cases hab : a < 0 ∨ a = 0 ∧ b < 1
    · have ha : a = 0 := by omega
      have hb : b = 0 := by omega
      subst ha; subst hb
      simp [deficit_zero_row]
    · simp only [hab, if_false]
  · have hd1 : ¬ (a < n + 1 ∧ b < T + 1) := by omega
    simp only [hd, hd1, if_false]

theorem initRow_spec (n T : Nat) (V : List Nat) :
    ∀ (k i : Nat) (m : Table), k + i = T + 1 → Filled n T V m 0 i →
      ∃ m1, initRow k i m = some m1 ∧ Filled n T V m1 0 (T + 1) := by
  intro k
  induction k with
  | zero =>
    intro i m hk h
    have : i = T + 1 := by omega
    subst this
    exact ⟨m, rfl, h⟩
  | succ k ih =>
    intro i m hk h
    obtain ⟨m1, hw, h1⟩ := h.write (Nat.zero_le n) (by omega : i ≤ T)
    rw [deficit_zero_row] at hw
    obtain ⟨m2, h2, h3⟩ := ih (i + 1) m1 (by omega) h1
    refine ⟨m2, ?_, h3⟩
    simp only [initRow, hw, h2]

theorem getElem?_getD_of_lt (V : List Nat) {i : Nat} (h : i < V.length) :
    V[i]? = some (V.getD i 0) := by
  rw [List.getD_eq_getElem?_getD, List.getElem?_eq_getElem h]
  rfl

theorem sel_of_not_lt {T : Nat} {V : List Nat} {i : Nat} (mi : Nat)
    (h : ¬ V.getD (i - 1) 0 < T) : sel T V i mi = mi := by
  unfold sel
  rw [if_neg (fun c => h c.1)]

theorem sel_of_lt {T : Nat} {V : List Nat} {i : Nat} (mi : Nat)
    (h : V.getD (i - 1) 0 < T) :
    sel T V i mi = if 0 < deficit V mi T then i else mi := by
  unfold sel
  by_cases hd : 0 < deficit V mi T
  · rw [if_pos ⟨h, hd⟩, if_pos hd]
  · rw [if_neg (fun c => hd c.2), if_neg hd]

theorem fillCols_found (T : Nat) (V : List Nat) (i : Nat) (hi1 : 1 ≤ i)
    (hin : i ≤ V.length) (hT : V.getD (i - 1) 0 = T) :
    ∀ (k j : Nat) (m : Table) (mi : Nat), k + j = T + 1 → 1 ≤ k →
      Filled V.length T V m i j →
      ∃ m1, fillCols T V i k j m mi = some (Fill.found m1 i) ∧ Filled V.length T V m1 i T := by
  intro k
  induction k with
  | zero => intro j m mi _ hk; omega
  | succ k ih =>
    intro j m mi hkj _ h
    have hj : j ≤ T := by omega
    have hv : V[i - 1]? = some T := by
      rw [getElem?_getD_of_lt V (by omega), hT]
    have hc : rd m 0 j = some j := by
      rw [h.rd_done (Nat.zero_le _) hj (Or.inl (by omega)), deficit_zero_row]
    by_cases hlt : j < T
    · have ha : rd m (i - 1) j = some (deficit V (i - 1) j) :=
        h.rd_done (by omega) hj (Or.inl (by omega))
      obtain ⟨m1, hw, h1⟩ := h.write hin hj
      have hd : deficit V i j = deficit V (i - 1) j := by
        obtain ⟨x, rfl⟩ : ∃ x, i = x + 1 := ⟨i - 1, by omega⟩
        rw [deficit_succ]
        simp only [Nat.add_sub_cancel] at hT ⊢
        rw [hT]
        simp [hlt]
      rw [hd] at hw
      obtain ⟨m2, h2, h3⟩ := ih (j + 1) m1 mi (by omega) (by omega) h1
      refine ⟨m2, ?_, h3⟩
      simp only [fillCols, hv, hc, hlt, gt_iff_lt, if_true, ha, hw, h2]
    · have hjT : j = T := by omega
      subst hjT
      refine ⟨m, ?_, h⟩
      simp [fillCols, hv, hc]

theorem fillCols_done (T : Nat) (V : List Nat) (i : Nat) (hi1 : 1 ≤ i)
    (hin : i ≤ V.length) (hT : V.getD (i - 1) 0 ≠ T) :
    ∀ (k j : Nat) (m : Table) (mi : Nat), k + j = T + 1 → (k ≠ 0 → mi < i) →
      Filled V.length T V m i j →
      ∃ m1, fillCols T V i k j m mi
          = some (Fill.done m1 (if k = 0 then mi else sel T V i mi)) ∧
        Filled V.length T V m1 i (T + 1) := by
  intro k
  induction k with
  | zero =>
    intro j m mi hkj _ h
    have : j = T + 1 := by omega
    subst this
    exact ⟨m, by simp [fillCols], h⟩
  | succ k ih =>
    intro j m mi hkj hmi0 h
    have hmi : mi < i := hmi0 (by omega)
    clear hmi0
    have hj : j ≤ T := by omega
    obtain ⟨x, rfl⟩ : ∃ x, i = x + 1 := ⟨i - 1, by omega⟩
    simp only [Nat.add_sub_cancel] at hT
    have hv : V[x + 1 - 1]? = some (V.getD x 0) := by
      simp only [Nat.add_sub_cancel]
      exact getElem?_getD_of_lt V (by omega)
    have hc : rd m 0 j = some j := by
      rw [h.rd_done (Nat.zero_le _) hj (Or.inl (by omega)), deficit_zero_row]
    obtain ⟨m1, hw, h1⟩ := h.write hin hj
    rw [deficit_succ] at hw
    by_cases hgt : V.getD x 0 > j
    · have ha : rd m (x + 1 - 1) j = some (deficit V x j) := by
        simp only [Nat.add_sub_cancel]
        exact h.rd_done (by omega) hj (Or.inl (by omega))
      simp only [hgt, if_true] at hw
      obtain ⟨m2, h2, h3⟩ := ih (j + 1) m1 mi (by omega) (fun _ => hmi) h1
      refine ⟨m2, ?_, h3⟩
      have hs : (if k + 1 = 0 then mi else sel T V (x + 1) mi)
          = (if k = 0 then mi else sel T V (x + 1) mi) := by
        by_cases hk0 : k = 0
        · have hnl : ¬ (V.getD (x + 1 - 1) 0 < T) := by
            simp only [Nat.add_sub_cancel]
            omega
          rw [sel_of_not_lt mi hnl]
          simp
        · simp [hk0]
      rw [hs, ← h2]
      simp only [fillCols, hv, hc, hgt, if_true, ha, hw]
    · simp only [hgt, if_false] at hw
      have ha : rd m (x + 1 - 1) (j - V.getD x 0) = some (deficit V x (j - V.getD x 0)) := by
        simp only [Nat.add_sub_cancel]
        exact h.rd_done (by omega) (by omega) (Or.inl (by omega))
      by_cases hlt : j < T
      · obtain ⟨m2, h2, h3⟩ := ih (j + 1) m1 mi (by omega) (fun _ => hmi) h1
        refine ⟨m2, ?_, h3⟩
        have hk0 : k ≠ 0 := by omega
        have hs : (if k + 1 = 0 then mi else sel T V (x + 1) mi)
            = (if k = 0 then mi else sel T V (x + 1) mi) := by simp [hk0]
        have hnot : ¬ (j ≥ T) := by omega
        rw [hs, ← h2]
        simp only [fillCols, hv, hc, hgt, if_false, hnot, ha, hw]
      · have hjT : j = T := by omega
        subst hjT
        have hk0 : k = 0 := by omega
        subst hk0
        have hrest : ¬ (j - V.getD x 0 = 0) := by omega
        have hx : rd m (x + 1) j = some 0 := h.rd_fresh hin (Nat.le_refl _) (by omega)
        have hy : rd m mi j = some (deficit V mi j) :=
          h.rd_done (by omega) (Nat.le_refl _) (Or.inl hmi)
        obtain ⟨m2, h2, h3⟩ := ih (j + 1) m1
          (if 0 < deficit V mi j then x + 1 else mi) (by omega) (fun c => absurd rfl c) h1
        refine ⟨m2, ?_, h3⟩
        have hsel : sel j V (x + 1) mi = (if 0 < deficit V mi j then x + 1 else mi) := by
          apply sel_of_lt
          simp only [Nat.add_sub_cancel]
          omega
        simp only [if_true] at h2
        have hs : (if 0 + 1 = 0 then mi else sel j V (x + 1) mi) = sel j V (x + 1) mi := by
          simp
        rw [hs, hsel, ← h2]
        simp only [fillCols, hv, hc, hgt, if_false, ge_iff_le, Nat.le_refl, if_true, hrest,
          hx, hy, ha, hw]

theorem sel_le {T : Nat} {V : List Nat} {i mi : Nat} (h : mi < i) : sel T V i mi < i + 1 := by
  unfold sel
  split <;> omega

theorem fillRows_spec (T : Nat) (V : List Nat) :
    ∀ (k i : Nat) (m : Table) (mi : Nat), i + k = V.length + 1 → 1 ≤ i → mi < i →
      Filled V.length T V m i 0 →
      ∃ f, fillRows T V k i m mi = some f ∧ Built T V (scanRows T V k i mi) f := by
  intro k
  induction k with
  | zero =>
    intro i m mi hik _ _ h
    have : i = V.length + 1 := by omega
    subst this
    exact ⟨Fill.done m mi, rfl, rfl, h⟩
  | succ k ih =>
    intro i m mi hik hi1 hmi h
    have hin : i ≤ V.length := by omega
    by_cases hT : V.getD (i - 1) 0 = T
    · obtain ⟨m1, h1, h2⟩ :=
        fillCols_found T V i hi1 hin hT (T + 1) 0 m mi (by omega) (by omega) h
      refine ⟨Fill.found m1 i, ?_, ?_⟩
      · simp only [fillRows, h1]
      · simp only [scanRows, hT, if_true]
        exact ⟨rfl, hi1, hin, hT, h2⟩
    · obtain ⟨m1, h1, h2⟩ :=
        fillCols_done T V i hi1 hin hT (T + 1) 0 m mi (by omega) (fun _ => hmi) h
      have hne : ¬ (T + 1 = 0) := by omega
      simp only [hne, if_false] at h1
      obtain ⟨f, h3, h4⟩ := ih (i + 1) m1 (sel T V i mi) (by omega) (by omega)
        (sel_le hmi) h2.next_row
      refine ⟨f, ?_, ?_⟩
      · simp only [fillRows, h1, h3]
      · simp only [scanRows, hT, if_false]
        exact h4

theorem build_spec (T n : Nat) (V : List Nat) (hn : n = V.length) :
    ∃ f, build T n V = some f ∧ Built T V (pickRow T V) f := by
  subst hn
  obtain ⟨m0, h0, h1⟩ := initRow_spec V.length T V T 1 _ (by omega) (Filled.init V.length T V)
  obtain ⟨f, h2, h3⟩ := fillRows_spec T V V.length 1 m0 0 (by omega) (Nat.le_refl _)
    (by omega) h1.next_row
  refine ⟨f, ?_, h3⟩
  simp only [build, h0, List.length_replicate, Nat.add_sub_cancel, h2]

/-! ## The backtracker -/

theorem idx_cast (a : Nat) : idx (a : Int) = some a := by
  simp [idx]

theorem rdI_cast (m : Table) (a b : Nat) : rdI m (a : Int) (b : Int) = rd m a b := by
  simp only [rdI, idx_cast]

theorem rdV_cast (V : List Nat) (a : Nat) : rdV V (a : Int) = V[a]? := by
  simp only [rdV, idx_cast]

theorem deficit_le (V : List Nat) : ∀ (i j : Nat), deficit V i j ≤ j := by
  intro i
  induction i with
  | zero => intro j; rw [deficit_zero_row]
  | succ i ih =>
    intro j
    rw [deficit_succ]
    split
    · exact ih j
    · exact Nat.le_trans (ih _) (Nat.sub_le _ _)

theorem deficit_of_gt {V : List Nat} {i j : Nat} (h : V.getD i 0 > j) :
    deficit V (i + 1) j = deficit V i j := by
  rw [deficit_succ, if_pos h]

theorem deficit_of_le {V : List Nat} {i j : Nat} (h : V.getD i 0 ≤ j) :
    deficit V (i + 1) j = deficit V i (j - V.getD i 0) := by
  rw [deficit_succ, if_neg (by omega)]

theorem fits_of_ne {V : List Nat} {i j : Nat} (h : deficit V i j ≠ deficit V (i + 1) j) :
    V.getD i 0 ≤ j := by
  by_contra hc
  exact h (deficit_of_gt (by omega)).symm

theorem steps_of_le (V : List Nat) {d j : Nat} (h : j ≤ d) (i : Nat) : steps V d i j = [] := by
  cases i with
  | zero => rw [steps]
  | succ i => rw [steps, if_pos h]

theorem steps_skip (V : List Nat) (d : Nat) {i j : Nat}
    (h : deficit V i j = deficit V (i + 1) j) : steps V d (i + 1) j = steps V d i j := by
  rw [steps]
  by_cases hj : j ≤ d
  · rw [if_pos hj, steps_of_le V hj]
  · rw [if_neg hj, if_pos h]

theorem headSteps_eq_steps (V : List Nat) (d : Nat) {i j : Nat}
    (h : i = 0 ∨ deficit V (i - 1) j ≠ deficit V i j) : headSteps V d i j = steps V d i j := by
  cases i with
  | zero => rw [headSteps, steps]
  | succ i =>
    have h1 : deficit V i j ≠ deficit V (i + 1) j := by
      rcases h with h | h
      · omega
      · simpa using h
    rw [headSteps, steps]
    by_cases hj : j ≤ d
    · rw [if_pos hj, if_neg (by omega)]
    · rw [if_neg hj, if_neg h1, if_pos (by omega)]

theorem skipLoop_spec (V : List Nat) (m : Table) (b c : Nat) :
    ∀ (fuel a : Nat), a < fuel → (∀ x, x ≤ a → rd m x b = some (deficit V x b)) →
      deficit V a b = c →
      ∃ a1 : Nat, skipLoop m (b : Int) c fuel (a : Int) = some (a1 : Int) ∧ a1 ≤ a ∧
        deficit V a1 b = c ∧ (a1 = 0 ∨ deficit V (a1 - 1) b ≠ deficit V a1 b) ∧
        ∀ d, steps V d a b = steps V d a1 b := by
  intro fuel
  induction fuel with
  | zero => intro a h; omega
  | succ fuel ih =>
    intro a hf hrows hc
    cases a with
    | zero =>
      refine ⟨0, ?_, Nat.le_refl _, hc, Or.inl rfl, fun _ => rfl⟩
      simp [skipLoop]
    | succ x =>
      have hcast : ((x + 1 : Nat) : Int) - 1 = (x : Int) := by omega
      have hge : (x : Int) ≥ 0 := by omega
      have hr : rdI m (x : Int) (b : Int) = some (deficit V x b) := by
        rw [rdI_cast]
        exact hrows x (by omega)
      by_cases hx : deficit V x b = c
      · obtain ⟨a1, h1, h2, h3, h4, h5⟩ :=
          ih x (by omega) (fun y hy => hrows y (by omega)) hx
        refine ⟨a1, ?_, by omega, h3, h4, ?_⟩
        · rw [skipLoop, hcast]
          simp only [hge, if_true, hr, hx, h1]
        · intro d
          rw [steps_skip V d (hx.trans hc.symm)]
          exact h5 d
      · refine ⟨x + 1, ?_, Nat.le_refl _, hc, Or.inr ?_, fun _ => rfl⟩
        · rw [skipLoop, hcast]
          simp only [hge, if_true, hr, hx, if_false]
        · simp only [Nat.add_sub_cancel]
          rw [hc]
          exact hx

theorem headSteps_of_le (V : List Nat) {d j : Nat} (h : j ≤ d) (i : Nat) :
    headSteps V d i j = [] := by
  cases i with
  | zero => rw [headSteps]
  | succ i => rw [headSteps, if_neg (by omega)]

theorem collectLoop_spec (V : List Nat) (m : Table) (r T d : Nat)
    (hd : rd m r T = some d)
    (hrows : ∀ x y, x < r → y ≤ T → rd m x y = some (deficit V x y)) :
    ∀ (fuel a b : Nat) (M : List Nat) (S : Nat), a < fuel → a ≤ r → a ≤ V.length → b ≤ T →
      deficit V a b = d → (a = 0 ∨ V.getD (a - 1) 0 ≤ b) →
      collectLoop m V r T fuel (a : Int) (b : Int) M S
        = some (M ++ headSteps V d a b, S + (headSteps V d a b).sum) := by
  intro fuel
  induction fuel with
  | zero => intro a b M S h; omega
  | succ fuel ih =>
    intro a b M S hf har haV hbT hab hready
    by_cases hbd : b > d
    · have hbd1 : (b : Int) > (d : Int) := by omega
      have ha0 : a ≠ 0 := by
        intro h0
        subst h0
        rw [deficit_zero_row] at hab
        omega
      obtain ⟨x, rfl⟩ : ∃ x, a = x + 1 := ⟨a - 1, by omega⟩
      have hfit : V.getD x 0 ≤ b := by
        rcases hready with h | h
        · omega
        · simpa using h
      have hcast : ((x + 1 : Nat) : Int) - 1 = (x : Int) := by omega
      have hjcast : (b : Int) - ((V.getD x 0 : Nat) : Int) = ((b - V.getD x 0 : Nat) : Int) := by
        omega
      have hv : rdV V (x : Int) = some (V.getD x 0) := by
        rw [rdV_cast]
        exact getElem?_getD_of_lt V (by omega)
      have hnb : ¬ ((x : Int) < 0 ∧ ((b - V.getD x 0 : Nat) : Int) ≤ (d : Int)) := by omega
      have hcell : deficit V x (b - V.getD x 0) = d := by
        rw [← deficit_of_le hfit]
        exact hab
      have hr : rdI m (x : Int) ((b - V.getD x 0 : Nat) : Int) = some d := by
        rw [rdI_cast, hrows x _ (by omega) (by omega), hcell]
      obtain ⟨a1, h1, h2, h3, h4, h5⟩ := skipLoop_spec V m (b - V.getD x 0) d (x + 1) x
        (by omega) (fun y hy => hrows y _ (by omega) (by omega)) hcell
      have hready1 : a1 = 0 ∨ V.getD (a1 - 1) 0 ≤ b - V.getD x 0 := by
        rcases h4 with h | h
        · exact Or.inl h
        · right
          have hpos : a1 ≠ 0 := by
            intro h0
            subst h0
            exact h rfl
          obtain ⟨z, rfl⟩ : ∃ z, a1 = z + 1 := ⟨a1 - 1, by omega⟩
          simp only [Nat.add_sub_cancel] at h ⊢
          exact fits_of_ne h
      have hrec := ih a1 (b - V.getD x 0) (M ++ [V.getD x 0]) (S + V.getD x 0) (by omega)
        (by omega) (by omega) (by omega) h3 hready1
      rw [headSteps_eq_steps V d h4, ← h5 d] at hrec
      have htoNat : (x : Int).toNat = x := by simp
      rw [collectLoop]
      simp only [hd, hbd1, if_true, hcast, hv, hjcast, hnb, if_false, hr, htoNat, h1, hrec]
      rw [headSteps, if_pos hbd]
      simp [Nat.add_assoc]
    · have hbd1 : ¬ ((b : Int) > (d : Int)) := by omega
      rw [collectLoop]
      simp only [hd, hbd1, if_false]
      rw [headSteps_of_le V (by omega)]
      simp

theorem collect_result_spec (V : List Nat) (m : Table) (r T : Nat) (M : List Nat) (S : Nat)
    (hd : rd m r T = some (deficit V r T))
    (hrows : ∀ x y, x < r → y ≤ T → rd m x y = some (deficit V x y))
    (hr : r ≤ V.length) (hready : r = 0 ∨ V.getD (r - 1) 0 ≤ T) :
    collect_result m V T M S r
      = some (M ++ headSteps V (deficit V r T) r T,
          S + (headSteps V (deficit V r T) r T).sum) := by
  unfold collect_result
  exact collectLoop_spec V m r T _ hd hrows (r + 1) r T M S (by omega) (Nat.le_refl _) hr
    (Nat.le_refl _) rfl hready

/-! ## Refinement: the table computation is `solve` -/

theorem scanRows_props (T : Nat) (V : List Nat) :
    ∀ (k i mi : Nat), i + k = V.length + 1 → mi < i → (mi = 0 ∨ V.getD (mi - 1) 0 ≤ T) →
      scanRows T V k i mi ≤ V.length ∧
        (scanRows T V k i mi = 0 ∨ V.getD (scanRows T V k i mi - 1) 0 ≤ T) := by
  intro k
  induction k with
  | zero =>
    intro i mi hik hmi hready
    simp only [scanRows]
    exact ⟨by omega, hready⟩
  | succ k ih =>
    intro i mi hik hmi hready
    by_cases hT : V.getD (i - 1) 0 = T
    · simp only [scanRows, hT, if_true]
      exact ⟨by omega, Or.inr (by omega)⟩
    · simp only [scanRows, hT, if_false]
      apply ih (i + 1) (sel T V i mi) (by omega) (sel_le hmi)
      by_cases hlt : V.getD (i - 1) 0 < T
      · rw [sel_of_lt mi hlt]
        split
        · exact Or.inr (by omega)
        · exact hready
      · rw [sel_of_not_lt mi hlt]
        exact hready

theorem pickRow_le (T : Nat) (V : List Nat) : pickRow T V ≤ V.length :=
  (scanRows_props T V V.length 1 0 (by omega) (by omega) (Or.inl rfl)).1

theorem pickRow_ready (T : Nat) (V : List Nat) :
    pickRow T V = 0 ∨ V.getD (pickRow T V - 1) 0 ≤ T :=
  (scanRows_props T V V.length 1 0 (by omega) (by omega) (Or.inl rfl)).2

theorem collect_after_build (T n : Nat) (V : List Nat) (M : List Nat) (hn : n = V.length) :
    ∃ f, build T n V = some f ∧
      (match f with
        | Fill.found m i => collect_result m V T M 0 i
        | Fill.done m min_indx => collect_result m V T M 0 min_indx)
        = some (M ++ taken T V, (taken T V).sum) := by
  obtain ⟨f, hf, hb⟩ := build_spec T n V hn
  refine ⟨f, hf, ?_⟩
  cases f with
  | found m i =>
    obtain ⟨hi, hi1, hin, hT, hfill⟩ := hb
    have hz : deficit V i T = 0 := by
      obtain ⟨x, rfl⟩ : ∃ x, i = x + 1 := ⟨i - 1, by omega⟩
      simp only [Nat.add_sub_cancel] at hT
      rw [deficit_of_le (by omega), hT, Nat.sub_self]
      exact Nat.le_zero.mp (deficit_le V x 0)
    have hd : rd m i T = some (deficit V i T) := by
      rw [hz]
      exact hfill.rd_fresh hin (Nat.le_refl _) (by omega)
    have h := collect_result_spec V m i T M 0 hd
      (fun x y hx hy => hfill.rd_done (by omega) hy (Or.inl hx)) hin (Or.inr (by omega))
    simp only [h, taken, ← hi, Nat.zero_add]
  | done m mi =>
    obtain ⟨hi, hfill⟩ := hb
    have hle := pickRow_le T V
    have hd : rd m mi T = some (deficit V mi T) :=
      hfill.rd_done (by omega) (Nat.le_refl _) (Or.inl (by omega))
    have h := collect_result_spec V m mi T M 0 hd
      (fun x y hx hy => hfill.rd_done (by omega) hy (Or.inl (by omega))) (by omega)
      (by rw [hi]; exact pickRow_ready T V)
    simp only [h, taken, ← hi, Nat.zero_add]

theorem find_largest_sum_eq_solve (T : Nat) (I : List Nat) (M : List Nat) :
    find_largest_sum T I M = some (solve T I M) := by
  unfold find_largest_sum solve
  by_cases hI : I.isEmpty = true
  · simp only [hI, if_true]
  · simp only [hI]
    obtain ⟨f, hf, hc⟩ := collect_after_build T I.length (I.insertionSort (fun a b => a ≤ b))
      (if T = 0 ∧ I.contains 0 = true then M ++ [0] else M)
      (List.length_insertionSort _ I).symm
    cases f with
    | found m i => simpa [hf] using hc
    | done m mi => simpa [hf] using hc

/-! ## Properties of the functional description -/

theorem steps_sum (V : List Nat) (d : Nat) :
    ∀ (a b : Nat), deficit V a b = d → (steps V d a b).sum + d = b := by
  intro a
  induction a with
  | zero =>
    intro b h
    rw [deficit_zero_row] at h
    simp [steps, h]
  | succ a ih =>
    intro b h
    have hle := deficit_le V (a + 1) b
    rw [steps]
    by_cases hbd : b ≤ d
    · rw [if_pos hbd]
      simp only [List.sum_nil]
      omega
    · rw [if_neg hbd]
      by_cases he : deficit V a b = deficit V (a + 1) b
      · rw [if_pos he]
        exact ih b (he.trans h)
      · rw [if_neg he]
        have hfit := fits_of_ne he
        have h1 := ih (b - V.getD a 0) ((deficit_of_le hfit).symm.trans h)
        simp only [List.sum_cons]
        omega

theorem headSteps_sum (V : List Nat) (d a b : Nat) (h : deficit V a b = d)
    (hready : a = 0 ∨ V.getD (a - 1) 0 ≤ b) : (headSteps V d a b).sum + d = b := by
  cases a with
  | zero =>
    rw [deficit_zero_row] at h
    simp [headSteps, h]
  | succ a =>
    have hfit : V.getD a 0 ≤ b := by
      rcases hready with h0 | h0
      · omega
      · simpa using h0
    have hle := deficit_le V (a + 1) b
    rw [headSteps]
    by_cases hbd : b > d
    · rw [if_pos hbd]
      have h1 := steps_sum V d a (b - V.getD a 0) ((deficit_of_le hfit).symm.trans h)
      simp only [List.sum_cons]
      omega
    · rw [if_neg hbd]
      simp only [List.sum_nil]
      omega

theorem taken_sum (T : Nat) (V : List Nat) :
    (taken T V).sum + deficit V (pickRow T V) T = T :=
  headSteps_sum V _ _ T rfl (pickRow_ready T V)

theorem take_succ_getD (V : List Nat) {a : Nat} (h : a < V.length) :
    V.take (a + 1) = V.take a ++ [V.getD a 0] := by
  rw [List.take_succ, getElem?_getD_of_lt V h]
  rfl

theorem steps_sublist (V : List Nat) (d : Nat) :
    ∀ (a b : Nat), a ≤ V.length → (steps V d a b).reverse.Sublist (V.take a) := by
  intro a
  induction a with
  | zero =>
    intro b _
    simp [steps]
  | succ a ih =>
    intro b ha
    rw [steps, take_succ_getD V (by omega)]
    by_cases hbd : b ≤ d
    · rw [if_pos hbd]
      simp
    · rw [if_neg hbd]
      by_cases he : deficit V a b = deficit V (a + 1) b
      · rw [if_pos he]
        exact (ih b (by omega)).trans (List.sublist_append_left _ _)
      · rw [if_neg he, List.reverse_cons]
        exact List.Sublist.append (ih _ (by omega)) (List.Sublist.refl _)

theorem headSteps_sublist (V : List Nat) (d a b : Nat) (ha : a ≤ V.length) :
    (headSteps V d a b).reverse.Sublist (V.take a) := by
  cases a with
  | zero => simp [headSteps]
  | succ a =>
    rw [headSteps, take_succ_getD V (by omega)]
    by_cases hbd : b > d
    · rw [if_pos hbd, List.reverse_cons]
      exact List.Sublist.append (steps_sublist V d a _ (by omega)) (List.Sublist.refl _)
    · rw [if_neg hbd]
      simp

theorem taken_count_le (T : Nat) (V : List Nat) (x : Nat) :
    (taken T V).count x ≤ V.count x := by
  have h := headSteps_sublist V (deficit V (pickRow T V) T) (pickRow T V) T (pickRow_le T V)
  have h1 := (h.trans (List.take_sublist _ _)).count_le x
  rwa [List.count_reverse] at h1

theorem taken_zero (V : List Nat) : taken 0 V = [] :=
  headSteps_of_le V (Nat.zero_le _) _

theorem sort_perm (I : List Nat) : (I.insertionSort (fun a b => a ≤ b)).Perm I :=
  List.perm_insertionSort _ I

theorem sort_congr {I J : List Nat} (h : I.Perm J) :
    I.insertionSort (fun a b => a ≤ b) = J.insertionSort (fun a b => a ≤ b) :=
  List.eq_of_perm_of_sorted (((sort_perm I).trans h).trans (sort_perm J).symm)
    (List.sorted_insertionSort _ I) (List.sorted_insertionSort _ J)

theorem solve_congr (T : Nat) {I J : List Nat} (M : List Nat) (h : I.Perm J) :
    solve T I M = solve T J M := by
  have he : I.isEmpty = J.isEmpty := by
    cases I with
    | nil => rw [h.nil_eq]
    | cons a I =>
      cases J with
      | nil => exact absurd h.symm.nil_eq (by simp)
      | cons b J => rfl
  have hc : I.contains 0 = J.contains 0 := by
    have : (0 ∈ I) ↔ (0 ∈ J) := h.mem_iff
    rw [Bool.eq_iff_iff]
    simpa using this
  unfold solve
  rw [he, hc, sort_congr h]

theorem solve_scenario13 :
    solve 700 [1, 2, 3, 4, 5, 6, 7] [] = ([7, 6, 5, 4, 3, 2, 1], 28) := by
  decide

/-! ## The claims -/

/-- C1 (the code departs from it): on `T = 7`, `I = [3,3,5]` the function returns
`S = 5` with `M = [5]`, although the sub-multiset `[3,3]` of `I` has the larger
sum `6 ≤ 7`; the returned sum is not the largest achievable one. -/
theorem find_largest_sum_not_closest :
    find_largest_sum 7 [3, 3, 5] [] = some ([5], 5) ∧
      Reachable [3, 3, 5] 6 ∧ 6 ≤ 7 ∧ 5 < 6 := by
  refine ⟨by decide, ⟨[3, 3], ?_, by decide⟩, by decide, by decide⟩
  exact (List.sublist_append_left [3, 3] [5]).subperm

/-- C2 (the code departs from it): on `T = 21`, `I = [4,3,6,5,4,3]` (test case 04
of the source) the sub-multiset `[3,6,5,4,3]` sums exactly to 21, yet the
function returns `S = 19`. -/
theorem find_largest_sum_misses_exact :
    Reachable [4, 3, 6, 5, 4, 3] 21 ∧
      find_largest_sum 21 [4, 3, 6, 5, 4, 3] [] = some ([6, 5, 4, 4], 19) := by
  refine ⟨⟨[3, 6, 5, 4, 3], ?_, by decide⟩, ?_⟩
  · exact (List.sublist_cons_self 4 [3, 6, 5, 4, 3]).subperm
  · decide

/-- C3: for every target `T`, item list `I` and initial `M`, the function returns
a result, and its sum satisfies `0 ≤ S ≤ T`. -/
theorem find_largest_sum_sum_le_target (T : Nat) (I M : List Nat) :
    ∃ M1 S, find_largest_sum T I M = some (M1, S) ∧ 0 ≤ S ∧ S ≤ T := by
  refine ⟨(solve T I M).1, (solve T I M).2, find_largest_sum_eq_solve T I M, Nat.zero_le _, ?_⟩
  unfold solve
  by_cases hI : I.isEmpty = true
  · simp [hI]
  · simp only [hI]
    have := taken_sum T (I.insertionSort (fun a b => a ≤ b))
    simp only [Bool.false_eq_true, if_false]
    omega

/-- C4: for every `T` and `I`, called with `M` empty the function returns a result
whose `S` is the arithmetic sum of the elements of the returned `M`. -/
theorem find_largest_sum_sum_eq (T : Nat) (I : List Nat) :
    ∃ M S, find_largest_sum T I [] = some (M, S) ∧ S = M.sum := by
  refine ⟨(solve T I []).1, (solve T I []).2, find_largest_sum_eq_solve T I [], ?_⟩
  unfold solve
  by_cases hI : I.isEmpty = true
  · simp [hI]
  · simp only [hI, Bool.false_eq_true, if_false]
    by_cases hz : T = 0 ∧ I.contains 0 = true
    · rw [if_pos hz]
      simp
    · rw [if_neg hz]
      simp

/-- C5: for every `T` and `I`, called with `M` empty the function returns a result
whose `M` is a sub-multiset of `I`: every value occurs in `M` at most as often as
in `I`. -/
theorem find_largest_sum_subset (T : Nat) (I : List Nat) :
    ∃ M S, find_largest_sum T I [] = some (M, S) ∧ ∀ x, M.count x ≤ I.count x := by
  refine ⟨(solve T I []).1, (solve T I []).2, find_largest_sum_eq_solve T I [], ?_⟩
  intro x
  unfold solve
  by_cases hI : I.isEmpty = true
  · simp [hI]
  · simp only [hI, Bool.false_eq_true, if_false]
    have hcount := taken_count_le T (I.insertionSort (fun a b => a ≤ b)) x
    rw [(sort_perm I).count_eq] at hcount
    by_cases hz : T = 0 ∧ I.contains 0 = true
    · obtain ⟨hT, hmem⟩ := hz
      subst hT
      have hmem1 : 0 ∈ I := by simpa using hmem
      simp only [hmem, and_self, if_true, taken_zero, List.nil_append, List.append_nil]
      by_cases hx : x = 0
      · subst hx
        have : 0 < I.count 0 := List.count_pos_iff.mpr hmem1
        simpa using this
      · have : List.count x [0] = 0 := List.count_eq_zero.mpr (by simpa using hx)
        omega
    · simp only [hz, if_false, List.nil_append]
      exact hcount

/-- C6: for a non-empty `I` and `T = 0`, called with `M` empty the function returns
`S = 0`, with `M = [0]` when `I` contains a 0 and `M = []` when it does not. -/
theorem find_largest_sum_zero_target (I : List Nat) (hI : I ≠ []) :
    find_largest_sum 0 I [] = some (if 0 ∈ I then [0] else [], 0) := by
  rw [find_largest_sum_eq_solve]
  unfold solve
  have hne : ¬ (I.isEmpty = true) := by simpa using hI
  simp only [hne, Bool.false_eq_true, if_false, taken_zero, List.append_nil, List.sum_nil,
    true_and, List.nil_append]
  by_cases hmem : 0 ∈ I
  · have : I.contains 0 = true := by simpa using hmem
    simp [hmem, this]
  · have : ¬ (I.contains 0 = true) := by simpa using hmem
    simp [hmem, this]

/-- Witness of C6 at `I = [0,1,2,3]` (test case 16 of the source). -/
theorem find_largest_sum_zero_target_witness :
    [0, 1, 2, 3] ≠ [] ∧
      find_largest_sum 0 [0, 1, 2, 3] [] = some (if 0 ∈ [0, 1, 2, 3] then [0] else [], 0) :=
  ⟨by decide, find_largest_sum_zero_target [0, 1, 2, 3] (by decide)⟩

/-- C7: for every target `T`, with `I = []` the function returns at its first test,
before any table is allocated, leaving `M` as it was passed (so `M = []` for an
empty `M`) and `S = 0`. -/
theorem find_largest_sum_empty (T : Nat) (M : List Nat) :
    find_largest_sum T [] M = some (M, 0) ∧ find_largest_sum T [] [] = some ([], 0) :=
  ⟨rfl, rfl⟩

/-- C8: for every `T` and every two item lists that are permutations of each
other, the function returns the same subset `M` and the same sum `S`. -/
theorem find_largest_sum_perm (T : Nat) (I J M : List Nat) (h : I.Perm J) :
    ∃ M1 S, find_largest_sum T I M = some (M1, S) ∧ find_largest_sum T J M = some (M1, S) := by
  refine ⟨(solve T I M).1, (solve T I M).2, find_largest_sum_eq_solve T I M, ?_⟩
  rw [find_largest_sum_eq_solve, solve_congr T M h]

/-- Witness of C8 at `T = 5`, `I = [3,1,2]`, `J = [1,2,3]`. -/
theorem find_largest_sum_perm_witness :
    [3, 1, 2].Perm [1, 2, 3] ∧
      ∃ M1 S, find_largest_sum 5 [3, 1, 2] [] = some (M1, S) ∧
        find_largest_sum 5 [1, 2, 3] [] = some (M1, S) :=
  ⟨by decide, find_largest_sum_perm 5 [3, 1, 2] [1, 2, 3] [] (by decide)⟩

/-- C9 as stated fails: for `T = 700`, `I = [1,2,3,4,5,6,7]` the function does not
return `S = 28` with `M = [7]`. -/
theorem scenario13_single_item_refuted :
    ¬ (find_largest_sum 700 [1, 2, 3, 4, 5, 6, 7] [] = some ([7], 28)) := by
  rw [find_largest_sum_eq_solve, solve_scenario13]
  decide

/-- C9 amended: for `T = 700`, `I = [1,2,3,4,5,6,7]` the function returns `S = 28`
and `M = [7,6,5,4,3,2,1]`, every item in discovery order. -/
theorem find_largest_sum_scenario13 :
    find_largest_sum 700 [1, 2, 3, 4, 5, 6, 7] [] = some ([7, 6, 5, 4, 3, 2, 1], 28) := by
  rw [find_largest_sum_eq_solve, solve_scenario13]

/-- C10 (the code departs from it): for `T = 3`, `I = [0,0,0]` (test case 09 of the
source) the function returns `S = 0` with `M = []`, not `M = [0]`. -/
theorem find_largest_sum_all_zero :
    find_largest_sum 3 [0, 0, 0] [] = some ([], 0) := by
  decide

/-! ## The built table -/

theorem call_spec (T n : Nat) (V : List Nat) (hn : n = V.length) :
    ∃ f, build T n V = some f ∧ f.row = pickRow T V ∧
      rd f.table f.row T = some (deficit V f.row T) ∧
      ∀ x y, x < f.row → y ≤ T → rd f.table x y = some (deficit V x y) := by
  obtain ⟨f, hf, hb⟩ := build_spec T n V hn
  refine ⟨f, hf, ?_⟩
  cases f with
  | found m i =>
    obtain ⟨hi, hi1, hin, hT, hfill⟩ := hb
    have hz : deficit V i T = 0 := by
      obtain ⟨x, rfl⟩ : ∃ x, i = x + 1 := ⟨i - 1, by omega⟩
      simp only [Nat.add_sub_cancel] at hT
      rw [deficit_of_le (by omega), hT, Nat.sub_self]
      exact Nat.le_zero.mp (deficit_le V x 0)
    simp only [Fill.row, Fill.table]
    refine ⟨hi, ?_, ?_⟩
    · rw [hz]
      exact hfill.rd_fresh hin (Nat.le_refl _) (by omega)
    · intro x y hx hy
      exact hfill.rd_done (by omega) hy (Or.inl hx)
  | done m mi =>
    obtain ⟨hi, hfill⟩ := hb
    have hle := pickRow_le T V
    simp only [Fill.row, Fill.table]
    refine ⟨hi, ?_, ?_⟩
    · exact hfill.rd_done (by omega) (Nat.le_refl _) (Or.inl (by omega))
    · intro x y hx hy
      exact hfill.rd_done (by omega) hy (Or.inl (by omega))

theorem done_table (T n : Nat) (V : List Nat) (hn : n = V.length) {m : Table} {mi : Nat}
    (h : build T n V = some (Fill.done m mi)) {i j : Nat} (hi : i ≤ V.length) (hj : j ≤ T) :
    rd m i j = some (deficit V i j) := by
  obtain ⟨f, hf, hb⟩ := build_spec T n V hn
  rw [h] at hf
  injection hf with hf
  subst hf
  exact hb.2.rd_done hi hj (Or.inl (by omega))

theorem deficit_eq_greedy (V : List Nat) :
    ∀ (i j : Nat), i ≤ V.length → deficit V i j = j - greedyTake (V.take i).reverse j := by
  intro i
  induction i with
  | zero =>
    intro j _
    simp [deficit_zero_row, greedyTake]
  | succ i ih =>
    intro j hi
    rw [take_succ_getD V (by omega), List.reverse_append, List.reverse_singleton,
      List.singleton_append, greedyTake, deficit_succ]
    by_cases h : V.getD i 0 ≤ j
    · rw [if_neg (by omega), if_pos h, ih _ (by omega)]
      omega
    · rw [if_pos (by omega), if_neg h, ih _ (by omega)]

theorem deficit_attained (V : List Nat) :
    ∀ (i j : Nat), i ≤ V.length →
      ∃ M : List Nat, M.Sublist (V.take i) ∧ M.sum + deficit V i j = j := by
  intro i
  induction i with
  | zero =>
    intro j _
    exact ⟨[], by simp, by simp [deficit_zero_row]⟩
  | succ i ih =>
    intro j hi
    rw [take_succ_getD V (by omega), deficit_succ]
    by_cases h : V.getD i 0 > j
    · rw [if_pos h]
      obtain ⟨M, hM, hs⟩ := ih j (by omega)
      exact ⟨M, hM.trans (List.sublist_append_left _ _), hs⟩
    · rw [if_neg h]
      obtain ⟨M, hM, hs⟩ := ih (j - V.getD i 0) (by omega)
      refine ⟨M ++ [V.getD i 0], List.Sublist.append hM (List.Sublist.refl _), ?_⟩
      simp only [List.sum_append, List.sum_cons, List.sum_nil]
      omega

/-! ## When every item fits -/

theorem take_sum_succ (V : List Nat) {i : Nat} (h : i < V.length) :
    (V.take (i + 1)).sum = (V.take i).sum + V.getD i 0 := by
  rw [take_succ_getD V h]
  simp

theorem take_sum_le (V : List Nat) : ∀ (i : Nat), (V.take i).sum ≤ V.sum := by
  intro i
  have h := List.sum_take_add_sum_drop V i
  omega

theorem deficit_all_fit (V : List Nat) :
    ∀ (i j : Nat), i ≤ V.length → (V.take i).sum ≤ j →
      deficit V i j = j - (V.take i).sum := by
  intro i
  induction i with
  | zero =>
    intro j _ _
    simp [deficit_zero_row]
  | succ i ih =>
    intro j hi hs
    rw [take_sum_succ V (by omega)] at hs ⊢
    rw [deficit_of_le (by omega), ih _ (by omega) (by omega)]
    omega

theorem scanRows_all_fit (T : Nat) (V : List Nat) (hT : V.sum ≤ T) :
    ∀ (k i mi : Nat), i + k = V.length + 1 → 1 ≤ i →
      deficit V mi T = T - (V.take (i - 1)).sum →
      deficit V (scanRows T V k i mi) T = T - V.sum := by
  intro k
  induction k with
  | zero =>
    intro i mi hik _ hmi
    have : i - 1 = V.length := by omega
    rw [this, List.take_length] at hmi
    simpa [scanRows] using hmi
  | succ k ih =>
    intro i mi hik hi1 hmi
    obtain ⟨x, rfl⟩ : ∃ x, i = x + 1 := ⟨i - 1, by omega⟩
    simp only [Nat.add_sub_cancel] at hmi
    have hx : x < V.length := by omega
    have hsucc := take_sum_succ V hx
    have hle := take_sum_le V (x + 1)
    have hfit : deficit V (x + 1) T = T - (V.take (x + 1)).sum :=
      deficit_all_fit V (x + 1) T (by omega) (by omega)
    rw [scanRows]
    simp only [Nat.add_sub_cancel]
    by_cases he : V.getD x 0 = T
    · rw [if_pos he, hfit]
      omega
    · rw [if_neg he]
      apply ih (x + 1 + 1) _ (by omega) (by omega)
      simp only [Nat.add_sub_cancel]
      have hlt : V.getD (x + 1 - 1) 0 < T := by
        simp only [Nat.add_sub_cancel]
        omega
      rw [sel_of_lt mi hlt]
      by_cases hpos : 0 < deficit V mi T
      · rw [if_pos hpos]
        exact hfit
      · rw [if_neg hpos]
        omega

theorem taken_all_fit (T : Nat) (V : List Nat) (hT : V.sum ≤ T) : (taken T V).sum = V.sum := by
  have h1 := taken_sum T V
  have h2 : deficit V (pickRow T V) T = T - V.sum :=
    scanRows_all_fit T V hT V.length 1 0 (by omega) (Nat.le_refl _)
      (by simp [deficit_zero_row])
  omega

/-! ## Every point of the construction -/

theorem initRow_prefix (n T : Nat) (V : List Nat) :
    ∀ (k i : Nat) (m : Table), k + i ≤ T + 1 → Filled n T V m 0 i →
      ∃ m1, initRow k i m = some m1 ∧ Filled n T V m1 0 (i + k) := by
  intro k
  induction k with
  | zero =>
    intro i m _ h
    exact ⟨m, rfl, h⟩
  | succ k ih =>
    intro i m hk h
    obtain ⟨m1, hw, h1⟩ := h.write (Nat.zero_le n) (by omega : i ≤ T)
    rw [deficit_zero_row] at hw
    obtain ⟨m2, h2, h3⟩ := ih (i + 1) m1 (by omega) h1
    refine ⟨m2, ?_, ?_⟩
    · simp only [initRow, hw, h2]
    · rw [show i + (k + 1) = i + 1 + k by omega]
      exact h3

theorem fillCols_prefix (T : Nat) (V : List Nat) (i : Nat) (hi1 : 1 ≤ i)
    (hin : i ≤ V.length) :
    ∀ (k j : Nat) (m : Table) (mi : Nat), k + j ≤ T + 1 → (k ≠ 0 → mi < i) →
      Filled V.length T V m i j →
      ∃ f j1, fillCols T V i k j m mi = some f ∧ j1 ≤ T + 1 ∧
        Filled V.length T V f.table i j1 := by
  intro k
  induction k with
  | zero =>
    intro j m mi hkj _ h
    exact ⟨Fill.done m mi, j, by simp [fillCols], by omega, h⟩
  | succ k ih =>
    intro j m mi hkj hmi0 h
    have hmi : mi < i := hmi0 (by omega)
    clear hmi0
    have hj : j ≤ T := by omega
    obtain ⟨x, rfl⟩ : ∃ x, i = x + 1 := ⟨i - 1, by omega⟩
    have hv : V[x + 1 - 1]? = some (V.getD x 0) := by
      simp only [Nat.add_sub_cancel]
      exact getElem?_getD_of_lt V (by omega)
    have hc : rd m 0 j = some j := by
      rw [h.rd_done (Nat.zero_le _) hj (Or.inl (by omega)), deficit_zero_row]
    obtain ⟨m1, hw, h1⟩ := h.write hin hj
    rw [deficit_succ] at hw
    by_cases hgt : V.getD x 0 > j
    · have ha : rd m (x + 1 - 1) j = some (deficit V x j) := by
        simp only [Nat.add_sub_cancel]
        exact h.rd_done (by omega) hj (Or.inl (by omega))
      simp only [hgt, if_true] at hw
      obtain ⟨f, j1, h2, h3, h4⟩ := ih (j + 1) m1 mi (by omega) (fun _ => hmi) h1
      refine ⟨f, j1, ?_, h3, h4⟩
      rw [← h2]
      simp only [fillCols, hv, hc, hgt, if_true, ha, hw]
    · simp only [hgt, if_false] at hw
      have ha : rd m (x + 1 - 1) (j - V.getD x 0) = some (deficit V x (j - V.getD x 0)) := by
        simp only [Nat.add_sub_cancel]
        exact h.rd_done (by omega) (by omega) (Or.inl (by omega))
      by_cases hlt : j < T
      · obtain ⟨f, j1, h2, h3, h4⟩ := ih (j + 1) m1 mi (by omega) (fun _ => hmi) h1
        refine ⟨f, j1, ?_, h3, h4⟩
        have hnot : ¬ (j ≥ T) := by omega
        rw [← h2]
        simp only [fillCols, hv, hc, hgt, if_false, hnot, ha, hw]
      · have hjT : j = T := by omega
        subst hjT
        have hk0 : k = 0 := by omega
        subst hk0
        by_cases hrest : j - V.getD x 0 = 0
        · refine ⟨Fill.found m (x + 1), j, ?_, by omega, h⟩
          simp only [fillCols, hv, hc, hgt, if_false, ge_iff_le, Nat.le_refl, if_true, hrest]
        · have hx : rd m (x + 1) j = some 0 := h.rd_fresh hin (Nat.le_refl _) (by omega)
          have hy : rd m mi j = some (deficit V mi j) :=
            h.rd_done (by omega) (Nat.le_refl _) (Or.inl hmi)
          obtain ⟨f, j1, h2, h3, h4⟩ := ih (j + 1) m1
            (if 0 < deficit V mi j then x + 1 else mi) (by omega) (fun c => absurd rfl c) h1
          refine ⟨f, j1, ?_, h3, h4⟩
          rw [← h2]
          simp only [fillCols, hv, hc, hgt, if_false, ge_iff_le, Nat.le_refl, if_true, hrest,
            hx, hy, ha, hw]

theorem fillRows_prefix (T : Nat) (V : List Nat) :
    ∀ (k i : Nat) (m : Table) (mi : Nat), i + k ≤ V.length + 1 → 1 ≤ i → mi < i →
      Filled V.length T V m i 0 →
      ∃ f, fillRows T V k i m mi = some f ∧
        ((∃ m1 r, f = Fill.found m1 r ∧ 1 ≤ r ∧ r ≤ V.length ∧ Filled V.length T V m1 r T) ∨
          (∃ m1 mi1, f = Fill.done m1 mi1 ∧ mi1 < i + k ∧ Filled V.length T V m1 (i + k) 0)) := by
  intro k
  induction k with
  | zero =>
    intro i m mi _ _ hmi h
    exact ⟨Fill.done m mi, rfl, Or.inr ⟨m, mi, rfl, hmi, h⟩⟩
  | succ k ih =>
    intro i m mi hik hi1 hmi h
    have hin : i ≤ V.length := by omega
    by_cases hT : V.getD (i - 1) 0 = T
    · obtain ⟨m1, h1, h2⟩ :=
        fillCols_found T V i hi1 hin hT (T + 1) 0 m mi (by omega) (by omega) h
      refine ⟨Fill.found m1 i, ?_, Or.inl ⟨m1, i, rfl, hi1, hin, h2⟩⟩
      simp only [fillRows, h1]
    · obtain ⟨m1, h1, h2⟩ :=
        fillCols_done T V i hi1 hin hT (T + 1) 0 m mi (by omega) (fun _ => hmi) h
      have hne : ¬ (T + 1 = 0) := by omega
      simp only [hne, if_false] at h1
      obtain ⟨f, h3, h4⟩ := ih (i + 1) m1 (sel T V i mi) (by omega) (by omega)
        (sel_le hmi) h2.next_row
      refine ⟨f, ?_, ?_⟩
      · simp only [fillRows, h1, h3]
      · rw [show i + (k + 1) = i + 1 + k by omega]
        exact h4

theorem Filled.bounded {n T : Nat} {V : List Nat} {m : Table} {i j : Nat}
    (h : Filled n T V m i j) {a b : Nat} (ha : a ≤ n) (hb : b ≤ T) :
    ∃ x, rd m a b = some x ∧ x ≤ b := by
  by_cases hab : a < i ∨ (a = i ∧ b < j)
  · exact ⟨_, h.rd_done ha hb hab, deficit_le V a b⟩
  · exact ⟨0, h.rd_fresh ha hb hab, Nat.zero_le _⟩

theorem Filled.row_zero {n T : Nat} {V : List Nat} {m : Table} {i j : Nat}
    (h : Filled n T V m i j) (hi : 1 ≤ i) {b : Nat} (hb : b ≤ T) : rd m 0 b = some b := by
  rw [h.rd_done (Nat.zero_le _) hb (Or.inl (by omega)), deficit_zero_row]

theorem tableAt_spec (T n : Nat) (V : List Nat) (r k : Nat) (hn : n = V.length)
    (hrk : (r < n ∧ k ≤ T + 1) ∨ (r = n ∧ k = 0)) :
    ∃ m i j, tableAt T n V r k = some m ∧ 1 ≤ i ∧ Filled n T V m i j := by
  subst hn
  obtain ⟨m0, h0, h1⟩ := initRow_spec V.length T V T 1 _ (by omega) (Filled.init V.length T V)
  obtain ⟨f, hf, hcase⟩ := fillRows_prefix T V r 1 m0 0 (by omega) (Nat.le_refl _)
    (by omega) h1.next_row
  rcases hcase with ⟨m1, r1, rfl, hr1, _, hfill⟩ | ⟨m1, mi1, rfl, hmi1, hfill⟩
  · exact ⟨m1, r1, T, by simp only [tableAt, h0, hf], hr1, hfill⟩
  · rcases hrk with ⟨hr, hk⟩ | ⟨hr, hk⟩
    · obtain ⟨f2, j1, h2, _, h4⟩ := fillCols_prefix T V (r + 1) (by omega) (by omega) k 0 m1 mi1
        (by omega) (fun _ => by omega) (by rw [Nat.add_comm]; exact hfill)
      exact ⟨f2.table, r + 1, j1, by simp only [tableAt, h0, hf, h2], by omega, h4⟩
    · subst hk
      refine ⟨m1, 1 + r, 0, ?_, by omega, hfill⟩
      simp only [tableAt, h0, hf, fillCols, Fill.table]

/-! ## The cursors of the backtracker -/

theorem collectLoop_eq_trace (m : Table) (V : List Nat) (r T : Nat) :
    ∀ (fuel : Nat) (i j : Int) (M : List Nat) (S : Nat),
      collectLoop m V r T fuel i j M S
        = (collectTrace m V r T fuel i j).map
            (fun p => (M ++ p.1.map (pushedAt V), S + (p.1.map (pushedAt V)).sum)) := by
  intro fuel
  induction fuel with
  | zero =>
    intro i j M S
    simp [collectLoop, collectTrace]
  | succ fuel ih =>
    intro i j M S
    rw [collectLoop, collectTrace]
    cases hd : rd m r T with
    | none => simp
    | some d =>
      by_cases hj : j > (d : Int)
      · simp only [hj, if_true]
        cases hv : rdV V (i - 1) with
        | none => simp
        | some v =>
          have hp : pushedAt V (i, j) = v := by simp [pushedAt, hv]
          by_cases hb : i - 1 < 0 ∧ j - (v : Int) ≤ (d : Int)
          · simp [hb, hp]
          · simp only [hb, if_false]
            cases hc : rdI m (i - 1) (j - (v : Int)) with
            | none => simp
            | some cell =>
              dsimp only
              cases hs : skipLoop m (j - (v : Int)) cell ((i - 1).toNat + 1) (i - 1) with
              | none => simp
              | some i2 =>
                dsimp only
                rw [ih]
                cases ht : collectTrace m V r T fuel i2 (j - (v : Int)) with
                | none => simp
                | some p =>
                  obtain ⟨tr, e, brk⟩ := p
                  simp [hp, Nat.add_assoc]
      · simp [hj]

theorem collectTrace_spec (V : List Nat) (m : Table) (r T d : Nat)
    (hd : rd m r T = some d)
    (hrows : ∀ x y, x < r → y ≤ T → rd m x y = some (deficit V x y)) :
    ∀ (fuel a b : Nat), a < fuel → a ≤ r → a ≤ V.length → b ≤ T →
      deficit V a b = d → (a = 0 ∨ V.getD (a - 1) 0 ≤ b) →
      ∃ (tr : List (Int × Int)) (e : Nat),
        collectTrace m V r T fuel (a : Int) (b : Int) = some (tr, (e : Int), false) ∧
        e ≤ a ∧ tr.length + e ≤ a ∧
        (∀ c ∈ tr, (e : Int) < c.1 ∧ c.1 ≤ (a : Int) ∧ (d : Int) < c.2 ∧ c.2 ≤ (b : Int) ∧
          ((pushedAt V c : Nat) : Int) ≤ c.2 ∧
          rdV V (c.1 - 1) = some (pushedAt V c) ∧
          rdI m (c.1 - 1) (c.2 - ((pushedAt V c : Nat) : Int)) = some d) ∧
        (tr.map Prod.fst).Pairwise (fun x y => x > y) := by
  intro fuel
  induction fuel with
  | zero => intro a b h; omega
  | succ fuel ih =>
    intro a b hf har haV hbT hab hready
    by_cases hbd : b > d
    · have hbd1 : (b : Int) > (d : Int) := by omega
      have ha0 : a ≠ 0 := by
        intro h0
        subst h0
        rw [deficit_zero_row] at hab
        omega
      obtain ⟨x, rfl⟩ : ∃ x, a = x + 1 := ⟨a - 1, by omega⟩
      have hfit : V.getD x 0 ≤ b := by
        rcases hready with h | h
        · omega
        · simpa using h
      have hcast : ((x + 1 : Nat) : Int) - 1 = (x : Int) := by omega
      have hjcast : (b : Int) - ((V.getD x 0 : Nat) : Int) = ((b - V.getD x 0 : Nat) : Int) := by
        omega
      have hv : rdV V (x : Int) = some (V.getD x 0) := by
        rw [rdV_cast]
        exact getElem?_getD_of_lt V (by omega)
      have hnb : ¬ ((x : Int) < 0 ∧ ((b - V.getD x 0 : Nat) : Int) ≤ (d : Int)) := by omega
      have hcell : deficit V x (b - V.getD x 0) = d := by
        rw [← deficit_of_le hfit]
        exact hab
      have hr : rdI m (x : Int) ((b - V.getD x 0 : Nat) : Int) = some d := by
        rw [rdI_cast, hrows x _ (by omega) (by omega), hcell]
      obtain ⟨a1, h1, h2, h3, h4, _⟩ := skipLoop_spec V m (b - V.getD x 0) d (x + 1) x
        (by omega) (fun y hy => hrows y _ (by omega) (by omega)) hcell
      have hready1 : a1 = 0 ∨ V.getD (a1 - 1) 0 ≤ b - V.getD x 0 := by
        rcases h4 with h | h
        · exact Or.inl h
        · right
          have hpos : a1 ≠ 0 := by
            intro h0
            subst h0
            exact h rfl
          obtain ⟨z, rfl⟩ : ∃ z, a1 = z + 1 := ⟨a1 - 1, by omega⟩
          simp only [Nat.add_sub_cancel] at h ⊢
          exact fits_of_ne h
      obtain ⟨tr, e, htr, he, hlen, hall, hpw⟩ := ih a1 (b - V.getD x 0) (by omega)
        (by omega) (by omega) (by omega) h3 hready1
      have htoNat : (x : Int).toNat = x := by simp
      have hpush : pushedAt V (((x + 1 : Nat) : Int), (b : Int)) = V.getD x 0 := by
        simp only [pushedAt, hcast, hv, Option.getD_some]
      refine ⟨(((x + 1 : Nat) : Int), (b : Int)) :: tr, e, ?_, by omega, ?_, ?_, ?_⟩
      · rw [collectTrace]
        simp only [hd, hbd1, if_true, hcast, hv, hjcast, hnb, if_false, hr, htoNat, h1, htr]
      · simp only [List.length_cons]
        omega
      · intro c hc
        rcases List.mem_cons.mp hc with rfl | hc
        · refine ⟨by omega, by omega, by omega, by omega, ?_, ?_, ?_⟩
          · rw [hpush]
            omega
          · rw [hpush]
            simp only [hcast, hv]
          · rw [hpush]
            simp only [hcast, hjcast, hr]
        · obtain ⟨c1, c2, c3, c4, c5, c6, c7⟩ := hall c hc
          exact ⟨c1, by omega, c3, by omega, c5, c6, c7⟩
      · simp only [List.map_cons, List.pairwise_cons]
        refine ⟨?_, hpw⟩
        intro y hy
        obtain ⟨c, hc, rfl⟩ := List.mem_map.mp hy
        have := (hall c hc).2.1
        omega
    · have hbd1 : ¬ ((b : Int) > (d : Int)) := by omega
      refine ⟨[], a, ?_, Nat.le_refl _, by simp, by simp, by simp⟩
      rw [collectTrace]
      simp only [hd, hbd1, if_false]

theorem find_largest_sum_call (T : Nat) (I M : List Nat) (hI : I ≠ []) (f : Fill)
    (hf : build T I.length (I.insertionSort (fun a b => a ≤ b)) = some f) :
    find_largest_sum T I M
      = collect_result f.table (I.insertionSort (fun a b => a ≤ b)) T
          (if T = 0 ∧ I.contains 0 then M ++ [0] else M) 0 f.row := by
  have hne : ¬ (I.isEmpty = true) := by simpa using hI
  unfold find_largest_sum
  simp only [hne, Bool.false_eq_true, if_false, hf]
  cases f <;> rfl

theorem call_trace (T : Nat) (I : List Nat) :
    ∃ (f : Fill) (d : Nat) (tr : List (Int × Int)) (e : Nat),
      build T I.length (I.insertionSort (fun a b => a ≤ b)) = some f ∧
      f.row ≤ I.length ∧ rd f.table f.row T = some d ∧
      collectTrace f.table (I.insertionSort (fun a b => a ≤ b)) f.row T (f.row + 1)
        (f.row : Int) (T : Int) = some (tr, (e : Int), false) ∧
      tr.length + e ≤ f.row ∧
      (∀ c ∈ tr, (e : Int) < c.1 ∧ c.1 ≤ (f.row : Int) ∧ (d : Int) < c.2 ∧ c.2 ≤ (T : Int) ∧
        ((pushedAt (I.insertionSort (fun a b => a ≤ b)) c : Nat) : Int) ≤ c.2 ∧
        rdV (I.insertionSort (fun a b => a ≤ b)) (c.1 - 1)
          = some (pushedAt (I.insertionSort (fun a b => a ≤ b)) c) ∧
        rdI f.table (c.1 - 1)
          (c.2 - ((pushedAt (I.insertionSort (fun a b => a ≤ b)) c : Nat) : Int)) = some d) ∧
      (tr.map Prod.fst).Pairwise (fun x y => x > y) := by
  have hn : I.length = (I.insertionSort (fun a b => a ≤ b)).length :=
    (List.length_insertionSort _ I).symm
  obtain ⟨f, hf, hrow, hd, hrows⟩ := call_spec T _ _ hn
  have hle : f.row ≤ (I.insertionSort (fun a b => a ≤ b)).length := by
    rw [hrow]
    exact pickRow_le T _
  have hready : f.row = 0 ∨ (I.insertionSort (fun a b => a ≤ b)).getD (f.row - 1) 0 ≤ T := by
    rw [hrow]
    exact pickRow_ready T _
  obtain ⟨tr, e, h1, _, h3, h4, h5⟩ := collectTrace_spec _ f.table f.row T _ hd hrows
    (f.row + 1) f.row T (by omega) (Nat.le_refl _) hle (Nat.le_refl _) rfl hready
  exact ⟨f, _, tr, e, hf, by omega, hd, h1, h3, h4, h5⟩

/-! ## The claims on the table and the backtracker -/

/-- C12 (the code departs from it): for `T = 8`, `I = [1,3,5,6]` (the example of
the doc comment of the source) the table is built to the end and `D[4][8] = 1`,
although the sub-multiset `[3,5]` of the four sorted items has sum `8`, deficit
`0`; the cell does not hold the minimal deficit. -/
theorem table_cell_not_minimal :
    build 8 [1, 3, 5, 6].length ([1, 3, 5, 6].insertionSort (fun a b => a ≤ b))
        = some (Fill.done
            [[0, 1, 2, 3, 4, 5, 6, 7, 8], [0, 0, 1, 2, 3, 4, 5, 6, 7],
              [0, 0, 1, 0, 0, 1, 2, 3, 4], [0, 0, 1, 0, 0, 0, 0, 1, 0],
              [0, 0, 1, 0, 0, 0, 0, 0, 1]] 3) ∧
      rd [[0, 1, 2, 3, 4, 5, 6, 7, 8], [0, 0, 1, 2, 3, 4, 5, 6, 7],
          [0, 0, 1, 0, 0, 1, 2, 3, 4], [0, 0, 1, 0, 0, 0, 0, 1, 0],
          [0, 0, 1, 0, 0, 0, 0, 0, 1]] 4 8 = some 1 ∧
      [3, 5].Sublist (([1, 3, 5, 6].insertionSort (fun a b => a ≤ b)).take 4) ∧
      [3, 5].sum ≤ 8 ∧ 8 - [3, 5].sum < 1 := by
  refine ⟨rfl, rfl, ?_, by decide, by decide⟩
  decide

/-- What the cells do hold: in a table built to the end, for every row `i` in
`0..n` and column `j` in `0..T`, `D[i][j]` equals `j - s` for the sum `s ≤ j` of
some sub-multiset of the first `i` ascending-sorted items, so it is at least the
minimal deficit. -/
theorem table_cell_attained (T : Nat) (I : List Nat) (m : Table) (mi : Nat)
    (h : build T I.length (I.insertionSort (fun a b => a ≤ b)) = some (Fill.done m mi))
    (i j : Nat) (hi : i ≤ I.length) (hj : j ≤ T) :
    ∃ (d : Nat) (M : List Nat), rd m i j = some d ∧
      M.Subperm ((I.insertionSort (fun a b => a ≤ b)).take i) ∧ M.sum ≤ j ∧ d = j - M.sum := by
  have hn : I.length = (I.insertionSort (fun a b => a ≤ b)).length :=
    (List.length_insertionSort _ I).symm
  obtain ⟨M, hM, hs⟩ := deficit_attained (I.insertionSort (fun a b => a ≤ b)) i j (by omega)
  exact ⟨_, M, done_table T _ _ hn h (by omega) hj, hM.subperm, by omega, by omega⟩

/-- The cell `(1, 3)` of the table of `T = 3`, `I = [2]` is an attained deficit. -/
theorem table_cell_attained_witness :
    build 3 [2].length ([2].insertionSort (fun a b => a ≤ b))
        = some (Fill.done [[0, 1, 2, 3], [0, 1, 0, 1]] 1) ∧ 1 ≤ [2].length ∧ 3 ≤ 3 ∧
      ∃ (d : Nat) (M : List Nat), rd [[0, 1, 2, 3], [0, 1, 0, 1]] 1 3 = some d ∧
        M.Subperm (([2].insertionSort (fun a b => a ≤ b)).take 1) ∧ M.sum ≤ 3 ∧
        d = 3 - M.sum :=
  ⟨rfl, by decide, by decide,
    table_cell_attained 3 [2] [[0, 1, 2, 3], [0, 1, 0, 1]] 1 rfl 1 3 (by decide) (by decide)⟩

/-- C13 (the code departs from it): for `T = 7`, `I = [3,3,5]` the construction
runs to the end, the target column holds `7, 4, 1, 2`, and `min_indx = 3` is
handed to the backtracker although row 2 has the smaller deficit `1 < 2`; the
returned sum is `5 < 7 - 1`. -/
theorem min_indx_not_smallest :
    build 7 [3, 3, 5].length ([3, 3, 5].insertionSort (fun a b => a ≤ b))
        = some (Fill.done
            [[0, 1, 2, 3, 4, 5, 6, 7], [0, 1, 2, 0, 1, 2, 3, 4],
              [0, 1, 2, 0, 1, 2, 0, 1], [0, 1, 2, 0, 1, 0, 1, 2]] 3) ∧
      rd [[0, 1, 2, 3, 4, 5, 6, 7], [0, 1, 2, 0, 1, 2, 3, 4],
          [0, 1, 2, 0, 1, 2, 0, 1], [0, 1, 2, 0, 1, 0, 1, 2]] 3 7 = some 2 ∧
      rd [[0, 1, 2, 3, 4, 5, 6, 7], [0, 1, 2, 0, 1, 2, 3, 4],
          [0, 1, 2, 0, 1, 2, 0, 1], [0, 1, 2, 0, 1, 0, 1, 2]] 2 7 = some 1 ∧
      find_largest_sum 7 [3, 3, 5] [] = some ([5], 5) := by
  refine ⟨rfl, rfl, rfl, ?_⟩
  decide

/-- C14 (the code departs from it): for `T = 5`, `I = [2,3,5]` row 2 is the first
row whose cell of the target column is 0 (`D[1][5] = 3`, `D[2][5] = 0`), yet the
construction goes on to row 3, exits there, and the result `M = [5]` is the
backtracking from row 3, not from row 2; for `T = 5`, `I = [2,3,9]` the
construction does not exit early at all. -/
theorem no_exit_at_first_zero :
    build 5 [2, 3, 5].length ([2, 3, 5].insertionSort (fun a b => a ≤ b))
        = some (Fill.found
            [[0, 1, 2, 3, 4, 5], [0, 1, 0, 1, 2, 3], [0, 1, 0, 0, 1, 0],
              [0, 1, 0, 0, 1, 0]] 3) ∧
      rd [[0, 1, 2, 3, 4, 5], [0, 1, 0, 1, 2, 3], [0, 1, 0, 0, 1, 0],
          [0, 1, 0, 0, 1, 0]] 1 5 = some 3 ∧
      rd [[0, 1, 2, 3, 4, 5], [0, 1, 0, 1, 2, 3], [0, 1, 0, 0, 1, 0],
          [0, 1, 0, 0, 1, 0]] 2 5 = some 0 ∧
      find_largest_sum 5 [2, 3, 5] [] = some ([5], 5) ∧
      build 5 [2, 3, 9].length ([2, 3, 9].insertionSort (fun a b => a ≤ b))
        = some (Fill.done
            [[0, 1, 2, 3, 4, 5], [0, 1, 0, 1, 2, 3], [0, 1, 0, 0, 1, 0],
              [0, 1, 0, 0, 1, 0]] 2) := by
  refine ⟨rfl, rfl, rfl, ?_, rfl⟩
  decide

/-- C15: for every input, with the table `memorize` and the row `i_res` at the
moment `collect_result` is called, the call returns, the elements it pushes sum
to `T - D[i_res][T]` for the stored value `D[i_res][T] ≤ T`, and that is the sum
it adds to `S`. -/
theorem collect_result_sum (T : Nat) (I M : List Nat) :
    ∃ (f : Fill) (d : Nat) (pushed : List Nat),
      build T I.length (I.insertionSort (fun a b => a ≤ b)) = some f ∧
      rd f.table f.row T = some d ∧ d ≤ T ∧
      collect_result f.table (I.insertionSort (fun a b => a ≤ b)) T M 0 f.row
        = some (M ++ pushed, T - d) ∧
      pushed.sum = T - d := by
  have hn : I.length = (I.insertionSort (fun a b => a ≤ b)).length :=
    (List.length_insertionSort _ I).symm
  obtain ⟨f, hf, hrow, hd, hrows⟩ := call_spec T _ _ hn
  have hle : f.row ≤ (I.insertionSort (fun a b => a ≤ b)).length := by
    rw [hrow]
    exact pickRow_le T _
  have hready : f.row = 0 ∨ (I.insertionSort (fun a b => a ≤ b)).getD (f.row - 1) 0 ≤ T := by
    rw [hrow]
    exact pickRow_ready T _
  have hc := collect_result_spec _ f.table f.row T M 0 hd hrows hle hready
  have hs := headSteps_sum (I.insertionSort (fun a b => a ≤ b)) _ f.row T rfl hready
  refine ⟨f, _, headSteps (I.insertionSort (fun a b => a ≤ b))
    (deficit (I.insertionSort (fun a b => a ≤ b)) f.row T) f.row T, hf, hd,
    deficit_le _ _ _, ?_, ?_⟩
  · rw [hc, Nat.zero_add]
    congr 2
    omega
  · omega

/-- C16: at every point of the construction (after any number `k0 ≤ T` of passes
of the loop that initialises row 0, and after any `r` complete rows and `k`
columns of the next row of the fill), every cell with row `i` in `0..n` and
column `j` in `0..T` is stored and satisfies `0 ≤ D[i][j] ≤ j`; and from the end
of the initialisation of row 0 on, row 0 holds `D[0][j] = j`. -/
theorem table_bounds (T : Nat) (I : List Nat) (k0 r k : Nat) (hk0 : k0 ≤ T)
    (hrk : (r < I.length ∧ k ≤ T + 1) ∨ (r = I.length ∧ k = 0)) :
    (∃ m, row0At T I.length k0 = some m ∧
        ∀ i j, i ≤ I.length → j ≤ T → ∃ x, rd m i j = some x ∧ 0 ≤ x ∧ x ≤ j) ∧
      (∃ m, tableAt T I.length (I.insertionSort (fun a b => a ≤ b)) r k = some m ∧
        (∀ i j, i ≤ I.length → j ≤ T → ∃ x, rd m i j = some x ∧ 0 ≤ x ∧ x ≤ j) ∧
        ∀ j, j ≤ T → rd m 0 j = some j) := by
  have hn : I.length = (I.insertionSort (fun a b => a ≤ b)).length :=
    (List.length_insertionSort _ I).symm
  constructor
  · obtain ⟨m, hm, hfill⟩ := initRow_prefix I.length T [] k0 1 _ (by omega)
      (Filled.init I.length T [])
    refine ⟨m, hm, ?_⟩
    intro i j hi hj
    obtain ⟨x, hx, hle⟩ := hfill.bounded hi hj
    exact ⟨x, hx, Nat.zero_le _, hle⟩
  · obtain ⟨m, i0, j0, hm, hi0, hfill⟩ := tableAt_spec T I.length _ r k hn hrk
    refine ⟨m, hm, ?_, ?_⟩
    · intro i j hi hj
      obtain ⟨x, hx, hle⟩ := hfill.bounded hi hj
      exact ⟨x, hx, Nat.zero_le _, hle⟩
    · intro j hj
      exact hfill.row_zero hi0 hj

/-- Witness of C16 at `T = 3`, `I = [2]`: after one pass of the initialisation of
row 0, and after two columns of row 1. -/
theorem table_bounds_witness :
    1 ≤ 3 ∧ ((0 < [2].length ∧ 2 ≤ 3 + 1) ∨ (0 = [2].length ∧ 2 = 0)) ∧
      ((∃ m, row0At 3 [2].length 1 = some m ∧
          ∀ i j, i ≤ [2].length → j ≤ 3 → ∃ x, rd m i j = some x ∧ 0 ≤ x ∧ x ≤ j) ∧
        (∃ m, tableAt 3 [2].length ([2].insertionSort (fun a b => a ≤ b)) 0 2 = some m ∧
          (∀ i j, i ≤ [2].length → j ≤ 3 → ∃ x, rd m i j = some x ∧ 0 ≤ x ∧ x ≤ j) ∧
          ∀ j, j ≤ 3 → rd m 0 j = some j)) :=
  ⟨by decide, by decide, table_bounds 3 [2] 1 0 2 (by decide) (by decide)⟩

/-- C17: for every input and the row `i_res` that the function passes to
`collect_result`, the loop terminates: it is left, without the `break`, after at
most `i_res` passes of its body (the fuel `i_res + 1` is never exhausted); the
values of the cursor `i` at the successive passes, followed by its final value,
are strictly decreasing and the final value is at least 0.  The call returns the
elements pushed at these passes. -/
theorem collect_result_terminates (T : Nat) (I : List Nat) :
    ∃ (f : Fill) (tr : List (Int × Int)) (e : Int) (brk : Bool),
      build T I.length (I.insertionSort (fun a b => a ≤ b)) = some f ∧
      collectTrace f.table (I.insertionSort (fun a b => a ≤ b)) f.row T (f.row + 1)
        (f.row : Int) (T : Int) = some (tr, e, brk) ∧
      tr.length ≤ f.row ∧
      (tr.map Prod.fst ++ [e]).Pairwise (fun x y => x > y) ∧ 0 ≤ e ∧
      ∀ M S, collect_result f.table (I.insertionSort (fun a b => a ≤ b)) T M S f.row
        = some (M ++ tr.map (pushedAt (I.insertionSort (fun a b => a ≤ b))),
            S + (tr.map (pushedAt (I.insertionSort (fun a b => a ≤ b)))).sum) := by
  obtain ⟨f, d, tr, e, hf, _, _, htr, hlen, hall, hpw⟩ := call_trace T I
  refine ⟨f, tr, (e : Int), false, hf, htr, by omega, ?_, by omega, ?_⟩
  · rw [List.pairwise_append]
    refine ⟨hpw, by simp, ?_⟩
    intro x hx y hy
    obtain ⟨c, hc, rfl⟩ := List.mem_map.mp hx
    have hy1 : y = (e : Int) := by simpa using hy
    rw [hy1]
    exact (hall c hc).1
  · intro M S
    unfold collect_result
    rw [collectLoop_eq_trace, htr]
    rfl

/-- C18: for every `T` and `I` whose items sum to at most `T`, called with `M`
empty the function returns `S` equal to the sum of all items of `I`. -/
theorem find_largest_sum_all_fit (T : Nat) (I : List Nat) (h : I.sum ≤ T) :
    ∃ M, find_largest_sum T I [] = some (M, I.sum) := by
  rw [find_largest_sum_eq_solve]
  unfold solve
  by_cases hI : I.isEmpty = true
  · have : I = [] := by simpa using hI
    subst this
    exact ⟨[], rfl⟩
  · simp only [hI, Bool.false_eq_true, if_false]
    have hsum : (I.insertionSort (fun a b => a ≤ b)).sum = I.sum := (sort_perm I).sum_eq
    rw [taken_all_fit T _ (by omega), hsum]
    exact ⟨_, rfl⟩

/-- Witness of C18 at `T = 700`, `I = [1,2,3,4,5,6,7]` (test case 13 of the
source): the sum is 28. -/
theorem find_largest_sum_all_fit_witness :
    [1, 2, 3, 4, 5, 6, 7].sum ≤ 700 ∧
      ∃ M, find_largest_sum 700 [1, 2, 3, 4, 5, 6, 7] [] = some (M, [1, 2, 3, 4, 5, 6, 7].sum) :=
  ⟨by decide, find_largest_sum_all_fit 700 [1, 2, 3, 4, 5, 6, 7] (by decide)⟩

/-- C19: for every non-empty `I` and every `T`, in the call of `collect_result`
made by the function, each time the body of the loop runs the cursor satisfies
`1 ≤ i ≤ n` and `V[i-1] ≤ j ≤ T`; the reads `V[i-1]` and, after the update of the
cursor, `memorize[i][j]` are in bounds, `j` does not become negative, and the
loop is not left through the `i < 0` branch. -/
theorem collect_result_in_bounds (T : Nat) (I M : List Nat) (hI : I ≠ []) :
    ∃ (f : Fill) (tr : List (Int × Int)) (e : Int),
      build T I.length (I.insertionSort (fun a b => a ≤ b)) = some f ∧
      find_largest_sum T I M
        = collect_result f.table (I.insertionSort (fun a b => a ≤ b)) T
            (if T = 0 ∧ I.contains 0 then M ++ [0] else M) 0 f.row ∧
      collectTrace f.table (I.insertionSort (fun a b => a ≤ b)) f.row T (f.row + 1)
        (f.row : Int) (T : Int) = some (tr, e, false) ∧
      ∀ c ∈ tr, 1 ≤ c.1 ∧ c.1 ≤ (I.length : Int) ∧ c.2 ≤ (T : Int) ∧
        (∃ v : Nat, rdV (I.insertionSort (fun a b => a ≤ b)) (c.1 - 1) = some v ∧
          (v : Int) ≤ c.2 ∧ 0 ≤ c.2 - (v : Int) ∧
          ∃ x, rdI f.table (c.1 - 1) (c.2 - (v : Int)) = some x) := by
  obtain ⟨f, d, tr, e, hf, hrow, _, htr, _, hall, _⟩ := call_trace T I
  refine ⟨f, tr, (e : Int), hf, find_largest_sum_call T I M hI f hf, htr, ?_⟩
  intro c hc
  obtain ⟨c1, c2, _, c4, c5, c6, c7⟩ := hall c hc
  exact ⟨by omega, by omega, c4, _, c6, c5, by omega, d, c7⟩

/-- Witness of C19 at `T = 3`, `I = [2]`. -/
theorem collect_result_in_bounds_witness :
    [2] ≠ [] ∧
      ∃ (f : Fill) (tr : List (Int × Int)) (e : Int),
        build 3 [2].length ([2].insertionSort (fun a b => a ≤ b)) = some f ∧
        find_largest_sum 3 [2] []
          = collect_result f.table ([2].insertionSort (fun a b => a ≤ b)) 3
              (if 3 = 0 ∧ [2].contains 0 then [] ++ [0] else []) 0 f.row ∧
        collectTrace f.table ([2].insertionSort (fun a b => a ≤ b)) f.row 3 (f.row + 1)
          (f.row : Int) (3 : Int) = some (tr, e, false) ∧
        ∀ c ∈ tr, 1 ≤ c.1 ∧ c.1 ≤ (([2] : List Nat).length : Int) ∧ c.2 ≤ (3 : Int) ∧
          (∃ v : Nat, rdV ([2].insertionSort (fun a b => a ≤ b)) (c.1 - 1) = some v ∧
            (v : Int) ≤ c.2 ∧ 0 ≤ c.2 - (v : Int) ∧
            ∃ x, rdI f.table (c.1 - 1) (c.2 - (v : Int)) = some x) :=
  ⟨by decide, collect_result_in_bounds 3 [2] [] (by decide)⟩

/-- C20: in a table built to the end, for every row `i` in `0..n` and column `j`
in `0..T`, `D[i][j]` equals `j` minus the sum obtained by scanning the first `i`
ascending-sorted items from the largest to the smallest and taking each item
whenever it still fits in the remaining capacity. -/
theorem table_eq_greedy (T : Nat) (I : List Nat) (m : Table) (mi : Nat)
    (h : build T I.length (I.insertionSort (fun a b => a ≤ b)) = some (Fill.done m mi))
    (i j : Nat) (hi : i ≤ I.length) (hj : j ≤ T) :
    rd m i j
      = some (j - greedyTake ((I.insertionSort (fun a b => a ≤ b)).take i).reverse j) := by
  have hn : I.length = (I.insertionSort (fun a b => a ≤ b)).length :=
    (List.length_insertionSort _ I).symm
  rw [done_table T _ _ hn h (by omega) hj, deficit_eq_greedy _ i j (by omega)]

/-- Witness of C20 at `T = 4`, `I = [2,1]`, cell `(2, 4)`: the scan takes 2, then 1. -/
theorem table_eq_greedy_witness :
    build 4 [2, 1].length ([2, 1].insertionSort (fun a b => a ≤ b))
        = some (Fill.done [[0, 1, 2, 3, 4], [0, 0, 1, 2, 3], [0, 0, 0, 0, 1]] 2) ∧
      2 ≤ [2, 1].length ∧ 4 ≤ 4 ∧
      rd [[0, 1, 2, 3, 4], [0, 0, 1, 2, 3], [0, 0, 0, 0, 1]] 2 4
        = some (4 - greedyTake (([2, 1].insertionSort (fun a b => a ≤ b)).take 2).reverse 4) :=
  ⟨rfl, by decide, by decide,
    table_eq_greedy 4 [2, 1] [[0, 1, 2, 3, 4], [0, 0, 1, 2, 3], [0, 0, 0, 0, 1]] 2 rfl 2 4
      (by decide) (by decide)⟩

end LargestSum

/-! ## The function `add` -/

namespace AddSumBinary

theorem bitOf_eq (a : Int) (i : Nat) (hi : i < 32) :
    bitOf a i = (a % 4294967296).toNat / 2 ^ i % 2 := by
  unfold bitOf
  rw [Int.shiftRight_eq_div_pow]
  interval_cases i <;> simp <;> omega

theorem xor_bits : ∀ x < 2, ∀ y < 2, ∀ c < 2, x ^^^ y ^^^ c = (x + y + c) % 2 := by
  decide

theorem maj_bits :
    ∀ x < 2, ∀ y < 2, ∀ c < 2, (x &&& y) ||| (x &&& c) ||| (y &&& c) = (x + y + c) / 2 := by
  decide

theorem lor_shift (r s i : Nat) (h : r < 2 ^ i) : r ||| (s <<< i) = r + 2 ^ i * s := by
  rw [Nat.shiftLeft_eq, Nat.lor_comm, Nat.mul_comm s, ← Nat.mul_add_lt_is_or h, Nat.add_comm]

theorem step_core (P ra rb x y : Nat) (hra : ra < P) (hrb : rb < P) (hx : x < 2)
    (hy : y < 2) :
    (ra + P * x + (rb + P * y)) % (P * 2)
        = (ra + rb) % P + P * ((x + y + (ra + rb) / P) % 2) ∧
      (ra + P * x + (rb + P * y)) / (P * 2) = (x + y + (ra + rb) / P) / 2 := by
  have hP : 0 < P := by omega
  have hdm := Nat.div_add_mod (ra + rb) P
  have hr : (ra + rb) % P < P := Nat.mod_lt _ hP
  have hc : (ra + rb) / P < 2 := by
    rw [Nat.div_lt_iff_lt_mul hP]
    omega
  generalize (ra + rb) / P = c at hdm hc ⊢
  generalize (ra + rb) % P = r at hdm hr ⊢
  have h := (Nat.div_mod_unique (a := ra + P * x + (rb + P * y)) (b := P * 2)
    (c := r + P * ((x + y + c) % 2)) (d := (x + y + c) / 2) (by omega)).mpr
  have h2 : r + P * ((x + y + c) % 2) + P * 2 * ((x + y + c) / 2)
        = ra + P * x + (rb + P * y) ∧ r + P * ((x + y + c) % 2) < P * 2 := by
    interval_cases x <;> interval_cases y <;> interval_cases c <;> norm_num <;> omega
  exact ⟨(h h2).2, (h h2).1⟩

theorem step_arith (P ua ub : Nat) (hP : 0 < P) :
    (ua + ub) % (P * 2)
        = (ua + ub) % P + P * ((ua / P % 2 + ub / P % 2 + (ua % P + ub % P) / P) % 2) ∧
      (ua % (P * 2) + ub % (P * 2)) / (P * 2)
        = (ua / P % 2 + ub / P % 2 + (ua % P + ub % P) / P) / 2 := by
  have ha : ua % (P * 2) = ua % P + P * (ua / P % 2) := Nat.mod_mul
  have hb : ub % (P * 2) = ub % P + P * (ub / P % 2) := Nat.mod_mul
  have h := step_core P (ua % P) (ub % P) (ua / P % 2) (ub / P % 2) (Nat.mod_lt _ hP)
    (Nat.mod_lt _ hP) (Nat.mod_lt _ (by omega)) (Nat.mod_lt _ (by omega))
  rw [← ha, ← hb, ← Nat.add_mod ua ub P, ← Nat.add_mod ua ub (P * 2)] at h
  exact h

theorem addLoop_spec (a b : Int) :
    ∀ (k i result carry : Nat), i + k = 32 →
      result = ((a % 4294967296).toNat + (b % 4294967296).toNat) % 2 ^ i →
      carry = ((a % 4294967296).toNat % 2 ^ i + (b % 4294967296).toNat % 2 ^ i) / 2 ^ i →
      addLoop a b k i result carry
        = ((a % 4294967296).toNat + (b % 4294967296).toNat) % 4294967296 := by
  intro k
  induction k with
  | zero =>
    intro i result carry hi hr _
    have : i = 32 := by omega
    subst this
    rw [addLoop, hr]
    norm_num
  | succ k ih =>
    intro i result carry hi hr hc
    have hi32 : i < 32 := by omega
    have hP : 0 < 2 ^ i := Nat.two_pow_pos i
    have hstep := step_arith (2 ^ i) (a % 4294967296).toNat (b % 4294967296).toNat hP
    rw [← Nat.pow_succ, ← bitOf_eq a i hi32, ← bitOf_eq b i hi32, ← hc, ← hr] at hstep
    have ha2 : bitOf a i < 2 := by rw [bitOf_eq a i hi32]; exact Nat.mod_lt _ (by omega)
    have hb2 : bitOf b i < 2 := by rw [bitOf_eq b i hi32]; exact Nat.mod_lt _ (by omega)
    have hc2 : carry < 2 := by
      rw [hc, Nat.div_lt_iff_lt_mul hP]
      have := Nat.mod_lt (a % 4294967296).toNat hP
      have := Nat.mod_lt (b % 4294967296).toNat hP
      omega
    have hrlt : result < 2 ^ i := by rw [hr]; exact Nat.mod_lt _ hP
    rw [addLoop]
    apply ih (i + 1) _ _ (by omega)
    · rw [lor_shift _ _ _ hrlt, xor_bits _ ha2 _ hb2 _ hc2]
      exact hstep.1.symm
    · rw [maj_bits _ ha2 _ hb2 _ hc2]
      exact hstep.2.symm

theorem add_eq_wrap32 (a b : Int) : add a b = wrap32 (a + b) := by
  unfold add wrap32
  rw [addLoop_spec a b 32 0 0 0 (by omega) (by simp only [Nat.pow_zero]; omega)
    (by simp only [Nat.pow_zero]; omega)]
  congr 1
  omega

/-- C11: for all 32-bit signed integers `a` and `b`, `add(a, b)` is the
two's-complement wrapping sum of `a` and `b` (`a + b` modulo `2^32`, read as
signed), which is again a 32-bit integer congruent to `a + b`; in particular
`add(a, 0) = a`, `add(0, b) = b` and `add(-1, 1) = 0`. -/
theorem add_wrapping_sum (a b : Int) (ha : IsInt32 a) (hb : IsInt32 b) :
    add a b = wrap32 (a + b) ∧ IsInt32 (add a b) ∧
      (add a b - (a + b)) % 4294967296 = 0 ∧ add a 0 = a ∧ add 0 b = b ∧
      add (-1) 1 = 0 := by
  have h0 : add a 0 = a := by
    rw [add_eq_wrap32]
    unfold wrap32 toInt32
    unfold IsInt32 at ha
    split <;> omega
  have h2 : add 0 b = b := by
    rw [add_eq_wrap32]
    unfold wrap32 toInt32
    unfold IsInt32 at hb
    split <;> omega
  have h1 : add (-1) 1 = 0 := by
    rw [add_eq_wrap32]
    decide
  refine ⟨add_eq_wrap32 a b, ?_, ?_, h0, h2, h1⟩
  · rw [add_eq_wrap32]
    unfold wrap32 toInt32 IsInt32
    split <;> omega
  · rw [add_eq_wrap32]
    unfold wrap32 toInt32
    split <;> omega

/-- Witness of C11 at `a = -1`, `b = -1` (test case 04 of the source, where the
arguments are written as 4294967295). -/
theorem add_wrapping_sum_witness :
    IsInt32 (-1) ∧ IsInt32 (-1) ∧
      (add (-1) (-1) = wrap32 (-1 + -1) ∧ IsInt32 (add (-1) (-1)) ∧
        (add (-1) (-1) - (-1 + -1)) % 4294967296 = 0 ∧ add (-1) 0 = -1 ∧
        add 0 (-1) = -1 ∧ add (-1) 1 = 0) :=
  ⟨by unfold IsInt32; decide, by unfold IsInt32; decide,
    add_wrapping_sum (-1) (-1) (by unfold IsInt32; decide) (by unfold IsInt32; decide)⟩

end AddSumBinary
